import Mathlib

/-!
# Verification of the user-data-consolidator deduplication core

Shallow embedding of `src/app.js` (cloeper/user-data-consolidator).

JavaScript values occurring in the records are modelled by `Value`
(strings, integer numbers, `null`, `undefined`); numeric values are
modelled as integers, and the string-to-number conversion used by the
loose equality `==` is modelled on its integer fragment.  Records are
JS objects: insertion-ordered association lists from field name to
value.  Records are mutated in place during merging, so record objects
live on a heap (`Nat → Record`) and all collections hold record ids.
`for (var k in obj)` enumeration follows the JS own-property order:
array-index-like keys first in ascending numeric order, then the other
keys in insertion order.
-/

namespace Consolidator

/-- A JavaScript value as it occurs in the user records. -/
inductive Value where
  | vStr (s : String)
  | vNum (n : Int)
  | vNull
  | vUndefined
deriving DecidableEq, Repr

/-- Whitespace characters stripped by string trimming. -/
def isWS (c : Char) : Bool :=
  c = ' ' || c = '\t' || c = '\n' || c = '\r'

/-- Trim leading and trailing whitespace (JS `ToNumber` ignores it). -/
def jsTrim (s : String) : String :=
  ⟨((s.toList.dropWhile isWS).reverse.dropWhile isWS).reverse⟩

/-- Value of a list of decimal digit characters. -/
def digitsVal : List Char → Nat
  | [] => 0
  | c :: cs => digitsVal cs + c.toNat.sub 48 * 10 ^ cs.length

/-- JS `ToNumber` on a string, restricted to its integer fragment:
trimmed empty string is `0`, an optional sign followed by decimal
digits is that integer, anything else (here) has no integer value. -/
def strToInt (s : String) : Option Int :=
  let t := (jsTrim s).toList
  match t with
  | [] => some 0
  | '-' :: ds => if ds ≠ [] ∧ ds.all Char.isDigit then some (-(digitsVal ds)) else none
  | '+' :: ds => if ds ≠ [] ∧ ds.all Char.isDigit then some (digitsVal ds) else none
  | ds => if ds.all Char.isDigit then some (digitsVal ds) else none

/-- JS loose equality `==` on the modelled values. -/
def looseEq : Value → Value → Bool
  | .vStr a, .vStr b => a = b
  | .vNum a, .vNum b => a = b
  | .vNull, .vNull => true
  | .vUndefined, .vUndefined => true
  | .vNull, .vUndefined => true
  | .vUndefined, .vNull => true
  | .vNum n, .vStr s => strToInt s = some n
  | .vStr s, .vNum n => strToInt s = some n
  | _, _ => false

/-- JS `ToString`, used when a value becomes an object property key. -/
def propKey : Value → String
  | .vStr s => s
  | .vNum n => toString n
  | .vNull => "null"
  | .vUndefined => "undefined"

/-- Lexicographic order on character lists. -/
def lexLe : List Char → List Char → Bool
  | [], _ => true
  | _ :: _, [] => false
  | a :: as, b :: bs =>
    if a = b then lexLe as bs else decide (a < b)

/-- String order used to state the chronological-sortedness hypothesis. -/
def strLe (a b : String) : Bool := lexLe a.toList b.toList

/-- Is the string a canonical array index (`"0"`, `"1"`, ...,
below 2^32 - 1)?  Such property keys are enumerated first, in
ascending numeric order, by JS `for (var k in obj)`. -/
def isArrayIndexStr (s : String) : Bool :=
  match s.toList with
  | [] => false
  | c :: cs =>
    (c :: cs).all Char.isDigit && (cs = [] || c ≠ '0') &&
      digitsVal (c :: cs) < 4294967295

/-- Numeric value of an array-index-like property key. -/
def idxVal (s : String) : Nat := digitsVal s.toList

/-- Insert an entry into a list sorted ascending by `idxVal` of the key. -/
def insertByIdx {α : Type} (x : String × α) : List (String × α) → List (String × α)
  | [] => [x]
  | y :: ys => if idxVal x.1 ≤ idxVal y.1 then x :: y :: ys else y :: insertByIdx x ys

/-- Insertion sort of entries by ascending numeric key value. -/
def sortByIdx {α : Type} : List (String × α) → List (String × α)
  | [] => []
  | x :: xs => insertByIdx x (sortByIdx xs)

/-- JS own-property enumeration order over an insertion-ordered entry
list: array-index-like keys first, ascending numerically, then the
remaining keys in insertion order. -/
def jsOrderEntries {α : Type} (l : List (String × α)) : List (String × α) :=
  sortByIdx (l.filter (fun p => isArrayIndexStr p.1)) ++
    l.filter (fun p => !isArrayIndexStr p.1)

/-- A field name of a record. -/
abbrev Field := String

/-- A record: a JS object, an insertion-ordered list of fields. -/
abbrev Record := List (Field × Value)

/-- `r.hasOwnProperty f`. -/
def hasProp (r : Record) (f : Field) : Bool := r.any (fun p => p.1 = f)

/-- Property read `r[f]`: `undefined` when the field is absent. -/
def getProp (r : Record) (f : Field) : Value :=
  match r.find? (fun p => p.1 = f) with
  | some p => p.2
  | none => .vUndefined

/-- Property write `r[f] = v`: updates in place, appends when new. -/
def setProp (r : Record) (f : Field) (v : Value) : Record :=
  if hasProp r f then r.map (fun p => if p.1 = f then (f, v) else p)
  else r ++ [(f, v)]

/-- The record heap: record objects referenced by id, mutable in place. -/
abbrev Heap := Nat → Record

/-- Heap update at one record id. -/
def heapSet (h : Heap) (i : Nat) (r : Record) : Heap :=
  fun j => if j = i then r else h j

/-- Association-list lookup by string key (first match). -/
def alookup {α : Type} (l : List (String × α)) (k : String) : Option α :=
  (l.find? (fun p => p.1 = k)).map (fun p => p.2)

/-- Association-list write: update in place, append when new
(JS object property assignment keeps the original key position). -/
def aset {α : Type} (l : List (String × α)) (k : String) (v : α) : List (String × α) :=
  if l.any (fun p => p.1 = k) then l.map (fun p => if p.1 = k then (k, v) else p)
  else l ++ [(k, v)]

/-- Per-key index: bucket property key to the ids of the records
sharing that (coerced) key value, in push order. -/
abbrev Index := List (String × List Nat)

/-- The user hash: one `Index` per identifying key. -/
abbrev UserHash := List (String × Index)

/-- The per-key seen-value lists of `generateKeyList` (the `key`
property always equals the entry's name, so only `list` is kept). -/
abbrev KeyListState := List (String × List Value)

/-- `generateKeyList` of `src/app.js`: one entry per configured key,
each holding an initially empty list of seen values. -/
def generateKeyList (keys : List String) : KeyListState :=
  keys.foldl (fun kl k => aset kl k []) []

/-- `initUserHash` of `src/app.js`: one empty index per configured key. -/
def initUserHash (keys : List String) : UserHash :=
  keys.foldl (fun h k => aset h k []) []

/-- One push onto `userHash[key][pk]`, creating the bucket when absent. -/
def bucketPush (idx : Index) (pk : String) (uid : Nat) : Index :=
  match alookup idx pk with
  | some b => aset idx pk (b ++ [uid])
  | none => aset idx pk [uid]

/-- The `for (var k in keyList[j].list)` loop of
`transformUsersToHashByKeys`: every seen value loosely equal (`==`) to
the user's value triggers a push of the user into the bucket named by
the user's own coerced value. -/
def pushMatches (idx : Index) (list : List Value) (v : Value) (uid : Nat) : Index :=
  list.foldl (fun acc w => if looseEq w v then bucketPush acc (propKey v) uid else acc) idx

/-- Processing of one user record for one identifying key inside
`transformUsersToHashByKeys`: record the value in the seen list if new
(strict `indexOf`), then push once per loose match in the seen list. -/
def processUserKey (h : Heap) (uid : Nat) (st : KeyListState × UserHash)
    (name : String) : KeyListState × UserHash :=
  let v := getProp (h uid) name
  let list := (alookup st.1 name).getD []
  let list' := if list.contains v then list else list ++ [v]
  let idx := (alookup st.2 name).getD []
  let idx' := pushMatches idx list' v uid
  (aset st.1 name list', aset st.2 name idx')

/-- The body of the `for (var i in users)` loop of
`transformUsersToHashByKeys`: iterate the keys of `keyList` in JS
enumeration order. -/
def transformStep (h : Heap) (st : KeyListState × UserHash) (uid : Nat) :
    KeyListState × UserHash :=
  ((jsOrderEntries st.1).map (fun p => p.1)).foldl (processUserKey h uid) st

/-- `transformUsersToHashByKeys` of `src/app.js`. -/
def transformUsersToHashByKeys (h : Heap) (users : List Nat) (keys : List String) :
    UserHash :=
  (users.foldl (transformStep h) (generateKeyList keys, initUserHash keys)).2

/-- One step of the inner field loop of `consolidateDuplicates`: fold
one field of the next record into the accumulator: add it when
missing, overwrite it on a strictly differing value; count one
change-log line per add or overwrite. -/
def mergeFieldStep (next : Record) (p : Record × Nat) (fv : Field × Value) :
    Record × Nat :=
  if !hasProp p.1 fv.1 then (setProp p.1 fv.1 (getProp next fv.1), p.2 + 1)
  else if getProp next fv.1 ≠ getProp p.1 fv.1 then
    (setProp p.1 fv.1 (getProp next fv.1), p.2 + 1)
  else p

/-- The inner field loop of `consolidateDuplicates`: fold the fields of
the next record (in JS key-enumeration order) into the accumulator. -/
def mergeInto (acc : Record) (next : Record) : Record × Nat :=
  (jsOrderEntries next).foldl (mergeFieldStep next) (acc, 0)

/-- One step of the record loop of `consolidateDuplicates`: merge the
next record of the bucket into the survivor, on the heap. -/
def consolidateStep (survivor : Nat) (p : Heap × Nat) (uid : Nat) : Heap × Nat :=
  let merged := mergeInto (p.1 survivor) (p.1 uid)
  (heapSet p.1 survivor merged.1, p.2 + merged.2)

/-- `consolidateDuplicates` of `src/app.js`: merge every record of the
bucket into the bucket's first record, mutating it on the heap.
Returns the new heap, the surviving record's id, and the number of
change-log lines written (two header lines plus one per field change). -/
def consolidateDuplicates (h : Heap) (dupes : List Nat) : Heap × Nat × Nat :=
  let survivor := dupes.headD 0
  let res := dupes.foldl (consolidateStep survivor) (h, 2)
  (res.1, survivor, res.2)

/-- One bucket's contribution inside `getConsolidatedUserList`: the
merge survivor for a bucket of size > 1, the lone record otherwise. -/
def processBucketsStep (p : Heap × List Nat × Nat) (entry : String × List Nat) :
    Heap × List Nat × Nat :=
  if entry.2.length > 1 then
    let c := consolidateDuplicates p.1 entry.2
    (c.1, p.2.1 ++ [c.2.1], p.2.2 + c.2.2)
  else (p.1, p.2.1 ++ [entry.2.headD 0], p.2.2)

/-- The `for (var k in hashByKey)` loop of `getConsolidatedUserList`:
one contribution per bucket in JS enumeration order. -/
def processBuckets (h : Heap) (idx : Index) : Heap × List Nat × Nat :=
  (jsOrderEntries idx).foldl processBucketsStep (h, [], 0)

/-- One key iteration of the inner loop of `getConsolidatedUserList`:
process the key's buckets, replacing the candidate list (the source
re-initializes `var consolidatedUsers = []` here) and accumulating the
log line count. -/
def consolidateKeyStep (userHash : UserHash) (q : Heap × List Nat × Nat)
    (key : String) : Heap × List Nat × Nat :=
  let r := processBuckets q.1 ((alookup userHash key).getD [])
  (r.1, r.2.1, q.2.2 + r.2.2)

/-- `getConsolidatedUserList` of `src/app.js`.  Note the inner loop
re-initializes `consolidatedUsers` (`var consolidatedUsers = []`) on
every key iteration, so the returned list is the contribution list of
the key processed last; heap mutations and log lines accumulate across
all iterations.  Returns (heap, candidate ids, log line count). -/
def getConsolidatedUserList (h : Heap) (userHash : UserHash) (keys : List String) :
    Heap × List Nat × Nat :=
  ((jsOrderEntries userHash).map (fun p => p.1)).foldl
    (fun (p : Heap × List Nat × Nat) _ => keys.foldl (consolidateKeyStep userHash) p)
    (h, [], 0)

/-- One step of the duplicate scan of `getListOfDuplicateValues`:
a value already in the seen list goes to the duplicate list, a new
value goes to the seen list.  The seen list is shared state. -/
def scanStep (st : List Value × List Value) (v : Value) : List Value × List Value :=
  if st.1.contains v then (st.1, st.2 ++ [v]) else (st.1 ++ [v], st.2)

/-- The per-user part of the scan of `getListOfDuplicateValues`:
visit the user's value for every configured key. -/
def scanUserStep (h : Heap) (keys : List String) (st : List Value × List Value)
    (uid : Nat) : List Value × List Value :=
  keys.foldl (fun st key => scanStep st (getProp (h uid) key)) st

/-- `getListOfDuplicateValues` of `src/app.js`: scan every user and
every configured key with a single seen-value list shared across all
keys; report every value found already seen. -/
def getListOfDuplicateValues (h : Heap) (users : List Nat) (keys : List String) :
    List Value :=
  (users.foldl (scanUserStep h keys) ([], [])).2

/-- `getResolveDuplicates` of `src/app.js`: index, consolidate, scan
for residual duplicates, recurse while any are found.  The source
recursion is unbounded, so it is modelled with explicit fuel; `none`
means the fuel ran out before the fixed point was reached.  Returns
(heap, final ids, number of passes, change-log line count). -/
def getResolveDuplicates (fuel : Nat) (h : Heap) (users : List Nat)
    (keys : List String) : Option (Heap × List Nat × Nat × Nat) :=
  match fuel with
  | 0 => none
  | fuel + 1 =>
    let hash := transformUsersToHashByKeys h users keys
    let c := getConsolidatedUserList h hash keys
    let dupes := getListOfDuplicateValues c.1 c.2.1 keys
    if dupes.length > 0 then
      match getResolveDuplicates fuel c.1 c.2.1 keys with
      | none => none
      | some (h2, out, passes, logs) => some (h2, out, passes + 1, c.2.2 + 1 + logs)
    else some (c.1, c.2.1, 1, c.2.2)

/-- The default configured keys `KEYS_WITH_DUPES` of `src/app.js`. -/
def KEYS_WITH_DUPES : List String := ["_id", "email"]

/-- Number of records summed over all buckets of an index. -/
def bucketSizeSum (idx : Index) : Nat := (idx.map (fun e => e.2.length)).sum

/-- Concatenation of all buckets of an index, in bucket order. -/
def bucketsJoin (idx : Index) : List Nat := (idx.map (fun e => e.2)).flatten

/-- The flattened list of values at every (record, key) position,
record-major, key-minor — the order in which the duplicate scan
visits them. -/
def positionsVals (h : Heap) (users : List Nat) (keys : List String) : List Value :=
  (users.map (fun u => keys.map (fun k => getProp (h u) k))).flatten

/-- The value of a field in the last record of a group that carries the
field, if any: the closed form of the merge accumulator. -/
def lastDefined (rs : List Record) (f : Field) : Option Value :=
  rs.foldl (fun a r => if hasProp r f then some (getProp r f) else a) none

/-- Ascending sortedness of a list of strings under `strLe`. -/
def sortedAsc : List String → Bool
  | [] => true
  | [_] => true
  | a :: b :: t => strLe a b && sortedAsc (b :: t)

/-- The entryDate of a record, as the string JS would coerce it to. -/
def entryKey (r : Record) : String := propKey (getProp r "entryDate")

/-- Is the value a string (used to state hypotheses about inputs whose
key values are plain strings)? -/
def isStrVal : Value → Bool
  | .vStr _ => true
  | _ => false

/-- Is the value a string that is not an array-index-like property key? -/
def isNonIndexStrVal : Value → Bool
  | .vStr s => !isArrayIndexStr s
  | _ => false

/-! ## Concrete inputs used by the counterexamples and evaluations -/

/-- Heap for C1's counterexample: a single record, two configured keys. -/
def hC1 : Heap := fun i =>
  if i = 0 then [("_id", .vStr "a"), ("email", .vStr "b")] else []

/-- Heap for C2's counterexample: the first record's `_id` equals the
second record's `email`; no key has a repeated value. -/
def hC2 : Heap := fun i =>
  if i = 0 then [("_id", .vStr "x"), ("email", .vStr "a")]
  else if i = 1 then [("_id", .vStr "y"), ("email", .vStr "x")] else []

/-- Heap for C3's counterexample: two records sharing `_id`, with
different `email`, the second chronologically newer. -/
def hC3 : Heap := fun i =>
  if i = 0 then [("_id", .vNum 1), ("email", .vStr "a"), ("entryDate", .vStr "2020-01-01")]
  else if i = 1 then [("_id", .vNum 1), ("email", .vStr "b"), ("entryDate", .vStr "2021-01-01")]
  else []

/-- Heap for C5's counterexample: `_id` values number `1` and string
`"1"`: strictly distinct, loosely equal, same property key. -/
def hC5 : Heap := fun i =>
  if i = 0 then [("_id", .vNum 1)] else if i = 1 then [("_id", .vStr "1")] else []

/-- Heap for C6's failing input: the chronologically newer record comes
first in input order. -/
def hC6 : Heap := fun i =>
  if i = 0 then [("_id", .vStr "1"), ("entryDate", .vStr "2021-01-01"), ("name", .vStr "New")]
  else if i = 1 then [("_id", .vStr "1"), ("entryDate", .vStr "2020-01-01"), ("name", .vStr "Old")]
  else []

/-- Heap for C7's counterexample: records 0 and 2 share `_id` number
`1` and email `"e1"`; record 1 has `_id` string `"1"` (same property
key, loosely equal, strictly distinct) and its own email. -/
def hC7 : Heap := fun i =>
  if i = 0 then [("_id", .vNum 1), ("email", .vStr "e1"), ("entryDate", .vStr "2020-01-01")]
  else if i = 1 then [("_id", .vStr "1"), ("email", .vStr "e2"), ("entryDate", .vStr "2021-01-01")]
  else if i = 2 then [("_id", .vNum 1), ("email", .vStr "e1"), ("entryDate", .vStr "2022-01-01")]
  else []

/-- The heap resolve leaves behind on C7's counterexample input. -/
def hC7' : Heap :=
  match getResolveDuplicates 9 hC7 [0, 1, 2] KEYS_WITH_DUPES with
  | some (h, _, _, _) => h
  | none => fun _ => []

/-- The list resolve returns on C7's counterexample input. -/
def outC7 : List Nat :=
  match getResolveDuplicates 9 hC7 [0, 1, 2] KEYS_WITH_DUPES with
  | some (_, o, _, _) => o
  | none => []

/-- Heap for Scenario A (claim C8). -/
def hC8 : Heap := fun i =>
  if i = 0 then
    [("_id", .vNum 1), ("email", .vStr "a@x.com"),
     ("entryDate", .vStr "2020-01-01"), ("name", .vStr "Al")]
  else if i = 1 then
    [("_id", .vNum 1), ("email", .vStr "a@x.com"),
     ("entryDate", .vStr "2021-01-01"), ("name", .vStr "Alice")]
  else []

/-- The record resolve leaves at the surviving id on Scenario A. -/
def finalRecC8 : Record :=
  match getResolveDuplicates 3 hC8 [0, 1] KEYS_WITH_DUPES with
  | some (h, out, _, _) => h (out.headD 0)
  | none => []

/-- Heap for C9's counterexample: all four key values pairwise
distinct (strictly and loosely), but the emails are numbers, so their
bucket property keys `"2"` and `"1"` are array-index-like and are
enumerated in ascending numeric order rather than insertion order. -/
def hC9 : Heap := fun i =>
  if i = 0 then [("_id", .vStr "a"), ("email", .vNum 2)]
  else if i = 1 then [("_id", .vStr "b"), ("email", .vNum 1)] else []

/-- The evolution of one key's seen-value list and index across one
user, as carved out of `processUserKey` (used to state per-key lemmas
about `transformUsersToHashByKeys`). -/
def perKeyStep (h : Heap) (key : String) (st : List Value × Index) (uid : Nat) :
    List Value × Index :=
  let v := getProp (h uid) key
  let list' := if st.1.contains v then st.1 else st.1 ++ [v]
  (list', pushMatches st.2 list' v uid)

set_option maxRecDepth 100000

/-! ## Record property lemmas -/

theorem bool_eq_false {b : Bool} (h : ¬ b = true) : b = false := by
  cases b
  · rfl
  · exact absurd rfl h

theorem getProp_cons (p : Field × Value) (r : Record) (f : Field) :
    getProp (p :: r) f = if p.1 = f then p.2 else getProp r f := by
  by_cases hp : p.1 = f <;>
    simp [getProp, List.find?_cons_of_pos, List.find?_cons_of_neg, hp]

theorem hasProp_cons (p : Field × Value) (r : Record) (f : Field) :
    hasProp (p :: r) f = (decide (p.1 = f) || hasProp r f) := by
  simp [hasProp]

theorem getProp_not_has (r : Record) (f : Field) (hf : hasProp r f = false) :
    getProp r f = .vUndefined := by
  induction r with
  | nil => rfl
  | cons p ps ih =>
    rw [hasProp_cons, Bool.or_eq_false_iff] at hf
    rw [getProp_cons, if_neg (by simpa using hf.1)]
    exact ih hf.2

theorem getProp_append_new (r : Record) (f : Field) (v : Value)
    (hf : hasProp r f = false) : getProp (r ++ [(f, v)]) f = v := by
  induction r with
  | nil => simp [getProp, List.find?]
  | cons p ps ih =>
    rw [hasProp_cons, Bool.or_eq_false_iff] at hf
    rw [List.cons_append, getProp_cons, if_neg (by simpa using hf.1)]
    exact ih hf.2

theorem getProp_append_other (r : Record) (f g : Field) (v : Value) (hg : g ≠ f) :
    getProp (r ++ [(f, v)]) g = getProp r g := by
  induction r with
  | nil =>
    rw [List.nil_append]
    show getProp ((f, v) :: []) g = getProp [] g
    rw [getProp_cons, if_neg (fun h => hg h.symm)]
  | cons p ps ih =>
    rw [List.cons_append, getProp_cons, getProp_cons, ih]

theorem hasProp_append_self (r : Record) (f : Field) (v : Value) :
    hasProp (r ++ [(f, v)]) f = true := by
  simp [hasProp]

theorem hasProp_append_other (r : Record) (f g : Field) (v : Value) (hg : g ≠ f) :
    hasProp (r ++ [(f, v)]) g = hasProp r g := by
  unfold hasProp
  rw [List.any_append]
  have hfg : List.any [(f, v)] (fun p => p.1 = g) = false := by
    rw [List.any_cons, List.any_nil, Bool.or_false]
    exact decide_eq_false (fun h => hg h.symm)
  rw [hfg, Bool.or_false]

theorem getProp_map_set (r : Record) (f : Field) (v : Value) (hf : hasProp r f = true) :
    getProp (r.map (fun p => if p.1 = f then (f, v) else p)) f = v := by
  induction r with
  | nil => simp [hasProp] at hf
  | cons p ps ih =>
    by_cases hp : p.1 = f
    · simp only [List.map_cons, if_pos hp]
      rw [getProp_cons]
      simp
    · simp only [List.map_cons, if_neg hp]
      rw [getProp_cons, if_neg hp]
      rw [hasProp_cons, Bool.or_eq_true_iff] at hf
      exact ih (hf.resolve_left (by simpa using hp))

theorem getProp_map_other (r : Record) (f g : Field) (v : Value) (hg : g ≠ f) :
    getProp (r.map (fun p => if p.1 = f then (f, v) else p)) g = getProp r g := by
  induction r with
  | nil => rfl
  | cons p ps ih =>
    by_cases hp : p.1 = f
    · simp only [List.map_cons, if_pos hp]
      rw [getProp_cons, getProp_cons, if_neg (fun h => hg h.symm),
        if_neg (fun h : p.1 = g => hg (hp ▸ h).symm)]
      exact ih
    · simp only [List.map_cons, if_neg hp]
      rw [getProp_cons, getProp_cons, ih]

theorem hasProp_map_set (r : Record) (f : Field) (v : Value) :
    hasProp (r.map (fun p => if p.1 = f then (f, v) else p)) f = hasProp r f := by
  induction r with
  | nil => rfl
  | cons p ps ih =>
    by_cases hp : p.1 = f
    · simp only [List.map_cons, if_pos hp]
      rw [hasProp_cons, hasProp_cons, hp]
      simp
    · simp only [List.map_cons, if_neg hp]
      rw [hasProp_cons, hasProp_cons, ih]

theorem hasProp_map_other (r : Record) (f g : Field) (v : Value) (_hg : g ≠ f) :
    hasProp (r.map (fun p => if p.1 = f then (f, v) else p)) g = hasProp r g := by
  induction r with
  | nil => rfl
  | cons p ps ih =>
    by_cases hp : p.1 = f
    · simp only [List.map_cons, if_pos hp]
      rw [hasProp_cons, hasProp_cons, ih, hp]
    · simp only [List.map_cons, if_neg hp]
      rw [hasProp_cons, hasProp_cons, ih]

theorem setProp_same (r : Record) (f : Field) (v : Value) :
    getProp (setProp r f v) f = v := by
  unfold setProp
  by_cases hf : hasProp r f
  · rw [if_pos hf]
    exact getProp_map_set r f v hf
  · rw [if_neg hf]
    exact getProp_append_new r f v (bool_eq_false hf)

theorem setProp_other (r : Record) (f g : Field) (v : Value) (hg : g ≠ f) :
    getProp (setProp r f v) g = getProp r g := by
  unfold setProp
  by_cases hf : hasProp r f
  · rw [if_pos hf]
    exact getProp_map_other r f g v hg
  · rw [if_neg hf]
    exact getProp_append_other r f g v hg

theorem setProp_has_same (r : Record) (f : Field) (v : Value) :
    hasProp (setProp r f v) f = true := by
  unfold setProp
  by_cases hf : hasProp r f
  · rw [if_pos hf]
    rw [hasProp_map_set]
    exact hf
  · rw [if_neg hf]
    exact hasProp_append_self r f v

theorem setProp_has_other (r : Record) (f g : Field) (v : Value) (hg : g ≠ f) :
    hasProp (setProp r f v) g = hasProp r g := by
  unfold setProp
  by_cases hf : hasProp r f
  · rw [if_pos hf]
    exact hasProp_map_other r f g v hg
  · rw [if_neg hf]
    exact hasProp_append_other r f g v hg

/-! ## JS enumeration-order lemmas -/

theorem insertByIdx_perm {α : Type} (x : String × α) (l : List (String × α)) :
    List.Perm (insertByIdx x l) (x :: l) := by
  induction l with
  | nil => exact List.Perm.refl _
  | cons y ys ih =>
    unfold insertByIdx
    by_cases hle : idxVal x.1 ≤ idxVal y.1
    · rw [if_pos hle]
    · rw [if_neg hle]
      exact (ih.cons y).trans (List.Perm.swap x y ys)

theorem sortByIdx_perm {α : Type} (l : List (String × α)) :
    List.Perm (sortByIdx l) l := by
  induction l with
  | nil => exact List.Perm.refl _
  | cons x xs ih =>
    exact (insertByIdx_perm x (sortByIdx xs)).trans (ih.cons x)

theorem jsOrderEntries_perm {α : Type} (l : List (String × α)) :
    List.Perm (jsOrderEntries l) l := by
  unfold jsOrderEntries
  exact ((sortByIdx_perm _).append_right _).trans
    (List.filter_append_perm (fun p => isArrayIndexStr p.1) l)

theorem jsOrderEntries_mem {α : Type} (l : List (String × α)) (a : String × α) :
    a ∈ jsOrderEntries l ↔ a ∈ l := (jsOrderEntries_perm l).mem_iff

theorem jsOrderEntries_any {α : Type} (l : List (String × α)) (p : String × α → Bool) :
    (jsOrderEntries l).any p = l.any p := by
  rw [Bool.eq_iff_iff]
  simp only [List.any_eq_true]
  constructor
  · rintro ⟨a, ha, hp⟩
    exact ⟨a, (jsOrderEntries_mem l a).mp ha, hp⟩
  · rintro ⟨a, ha, hp⟩
    exact ⟨a, (jsOrderEntries_mem l a).mpr ha, hp⟩

theorem jsOrderEntries_eq_nil {α : Type} (l : List (String × α)) :
    jsOrderEntries l = [] ↔ l = [] := by
  constructor
  · intro hl
    have hlen := (jsOrderEntries_perm l).length_eq
    rw [hl] at hlen
    exact List.eq_nil_of_length_eq_zero hlen.symm
  · intro hl
    subst hl
    rfl

/-! ## Merge-fold lemmas -/

theorem mergeFieldStep_other (next : Record) (p : Record × Nat) (fv : Field × Value)
    (g : Field) (hg : fv.1 ≠ g) :
    getProp (mergeFieldStep next p fv).1 g = getProp p.1 g ∧
      hasProp (mergeFieldStep next p fv).1 g = hasProp p.1 g := by
  unfold mergeFieldStep
  split
  · exact ⟨setProp_other _ _ _ _ (fun h => hg h.symm),
      setProp_has_other _ _ _ _ (fun h => hg h.symm)⟩
  · split
    · exact ⟨setProp_other _ _ _ _ (fun h => hg h.symm),
        setProp_has_other _ _ _ _ (fun h => hg h.symm)⟩
    · exact ⟨rfl, rfl⟩

theorem mergeFold_miss (next : Record) (f : Field) :
    ∀ (es : List (Field × Value)) (acc : Record) (n : Nat),
      (∀ fv ∈ es, fv.1 ≠ f) →
      getProp (es.foldl (mergeFieldStep next) (acc, n)).1 f = getProp acc f ∧
        hasProp (es.foldl (mergeFieldStep next) (acc, n)).1 f = hasProp acc f := by
  intro es
  induction es with
  | nil => intro acc n _; exact ⟨rfl, rfl⟩
  | cons fv rest ih =>
    intro acc n hmem
    rw [List.foldl_cons]
    have hstep := mergeFieldStep_other next (acc, n) fv f (hmem fv (List.mem_cons_self _ _))
    have := ih (mergeFieldStep next (acc, n) fv).1 (mergeFieldStep next (acc, n) fv).2
      (fun x hx => hmem x (List.mem_cons_of_mem _ hx))
    constructor
    · rw [this.1, hstep.1]
    · rw [this.2, hstep.2]

theorem mergeFieldStep_hit (next : Record) (p : Record × Nat) (fv : Field × Value)
    (f : Field) (hfv : fv.1 = f) :
    getProp (mergeFieldStep next p fv).1 f = getProp next f := by
  unfold mergeFieldStep
  subst hfv
  split
  · exact setProp_same _ _ _
  · split
    next h2 => exact setProp_same _ _ _
    next h2 => exact (not_ne_iff.mp h2).symm

theorem mergeFold_hit (next : Record) (f : Field) :
    ∀ (es : List (Field × Value)) (acc : Record) (n : Nat),
      es.any (fun fv => fv.1 = f) = true →
      getProp (es.foldl (mergeFieldStep next) (acc, n)).1 f = getProp next f := by
  intro es
  induction es with
  | nil => intro acc n h; simp at h
  | cons fv rest ih =>
    intro acc n hany
    rw [List.foldl_cons]
    by_cases hfv : fv.1 = f
    · by_cases hrest : rest.any (fun fv => fv.1 = f) = true
      · exact ih _ _ hrest
      · have hall : ∀ x ∈ rest, x.1 ≠ f := by
          intro x hx hc
          have : (rest.any fun fv => decide (fv.1 = f)) = true :=
            List.any_eq_true.mpr ⟨x, hx, decide_eq_true hc⟩
          exact hrest this
        rw [(mergeFold_miss next f rest _ _ hall).1]
        exact mergeFieldStep_hit next (acc, n) fv f hfv
    · rw [List.any_cons] at hany
      have : rest.any (fun fv => fv.1 = f) = true := by
        rcases Bool.or_eq_true_iff.mp hany with h | h
        · exact absurd (of_decide_eq_true h) hfv
        · exact h
      exact ih _ _ this

theorem mergeFieldStep_has (next : Record) (p : Record × Nat) (fv : Field × Value)
    (f : Field) (hfv : fv.1 = f) :
    hasProp (mergeFieldStep next p fv).1 f = true := by
  unfold mergeFieldStep
  subst hfv
  split
  · exact setProp_has_same _ _ _
  · split
    next h2 => exact setProp_has_same _ _ _
    next h1 h2 =>
      have : ¬ hasProp p.1 fv.1 = false := by
        intro hc
        exact h1 (by rw [hc]; rfl)
      cases hb : hasProp p.1 fv.1
      · exact absurd hb this
      · rfl

theorem mergeFold_has (next : Record) (f : Field) :
    ∀ (es : List (Field × Value)) (acc : Record) (n : Nat),
      hasProp (es.foldl (mergeFieldStep next) (acc, n)).1 f =
        (hasProp acc f || es.any (fun fv => fv.1 = f)) := by
  intro es
  induction es with
  | nil => intro acc n; simp
  | cons fv rest ih =>
    intro acc n
    rw [List.foldl_cons, List.any_cons]
    by_cases hfv : fv.1 = f
    · have h1 : hasProp (mergeFieldStep next (acc, n) fv).1 f = true :=
        mergeFieldStep_has next (acc, n) fv f hfv
      have h2 := ih (mergeFieldStep next (acc, n) fv).1 (mergeFieldStep next (acc, n) fv).2
      rw [h2, h1]
      simp [hfv]
    · have hstep := mergeFieldStep_other next (acc, n) fv f hfv
      have h2 := ih (mergeFieldStep next (acc, n) fv).1 (mergeFieldStep next (acc, n) fv).2
      rw [h2, hstep.2]
      simp [hfv]

theorem mergeInto_getProp (acc next : Record) (f : Field) :
    getProp (mergeInto acc next).1 f =
      if hasProp next f then getProp next f else getProp acc f := by
  unfold mergeInto
  by_cases hf : hasProp next f
  · rw [if_pos hf]
    exact mergeFold_hit next f _ acc 0 (by rw [jsOrderEntries_any]; exact hf)
  · rw [if_neg hf]
    refine (mergeFold_miss next f _ acc 0 ?_).1
    intro fv hfv hc
    apply hf
    unfold hasProp
    exact List.any_eq_true.mpr ⟨fv, (jsOrderEntries_mem next fv).mp hfv, by simp [hc]⟩

theorem mergeInto_hasProp (acc next : Record) (f : Field) :
    hasProp (mergeInto acc next).1 f = (hasProp acc f || hasProp next f) := by
  unfold mergeInto
  rw [mergeFold_has next f _ acc 0, jsOrderEntries_any]
  rfl

theorem mergeFold_self (a : Record) :
    ∀ (es : List (Field × Value)) (n : Nat),
      (∀ fv ∈ es, hasProp a fv.1 = true) →
      es.foldl (mergeFieldStep a) (a, n) = (a, n) := by
  intro es
  induction es with
  | nil => intro n _; rfl
  | cons fv rest ih =>
    intro n hmem
    rw [List.foldl_cons]
    have hstep : mergeFieldStep a (a, n) fv = (a, n) := by
      unfold mergeFieldStep
      rw [hmem fv (List.mem_cons_self _ _)]
      simp
    rw [hstep]
    exact ih n (fun x hx => hmem x (List.mem_cons_of_mem _ hx))

theorem mergeInto_self (a : Record) : mergeInto a a = (a, 0) := by
  unfold mergeInto
  refine mergeFold_self a _ 0 ?_
  intro fv hfv
  unfold hasProp
  exact List.any_eq_true.mpr ⟨fv, (jsOrderEntries_mem a fv).mp hfv, by simp⟩

/-! ## Consolidation lemmas: frame and survivor value -/

theorem heapSet_other (h : Heap) (i : Nat) (r : Record) (j : Nat) (hj : j ≠ i) :
    heapSet h i r j = h j := by
  simp [heapSet, hj]

theorem consolidateFold_frame (s : Nat) :
    ∀ (ids : List Nat) (st : Heap × Nat) (j : Nat), j ≠ s →
      (ids.foldl (consolidateStep s) st).1 j = st.1 j := by
  intro ids
  induction ids with
  | nil => intro st j _; rfl
  | cons a as ih =>
    intro st j hj
    rw [List.foldl_cons, ih _ j hj]
    exact heapSet_other _ _ _ _ hj

theorem consolidate_frame (h : Heap) (dupes : List Nat) (j : Nat)
    (hj : j ≠ dupes.headD 0) :
    (consolidateDuplicates h dupes).1 j = h j :=
  consolidateFold_frame (dupes.headD 0) dupes (h, 2) j hj

theorem consolidate_survivor (h : Heap) (dupes : List Nat) :
    (consolidateDuplicates h dupes).2.1 = dupes.headD 0 := rfl

theorem consolidateFold_tail (hp : Heap) (s : Nat) :
    ∀ (ids : List Nat) (h' : Heap) (n : Nat) (acc : Record), s ∉ ids →
      h' s = acc → (∀ j, j ≠ s → h' j = hp j) →
      (ids.foldl (consolidateStep s) (h', n)).1 s =
        ids.foldl (fun a uid => (mergeInto a (hp uid)).1) acc := by
  intro ids
  induction ids with
  | nil =>
    intro h' n acc _ hs _
    exact hs
  | cons a as ih =>
    intro h' n acc hnm hs hframe
    have ha : a ≠ s := fun hc => hnm (hc ▸ List.mem_cons_self _ _)
    rw [List.foldl_cons, List.foldl_cons]
    have hstep : consolidateStep s (h', n) a =
        (heapSet h' s (mergeInto acc (hp a)).1, n + (mergeInto acc (hp a)).2) := by
      show (heapSet h' s (mergeInto (h' s) (h' a)).1, n + (mergeInto (h' s) (h' a)).2) = _
      rw [hs, hframe a ha]
    rw [hstep]
    refine ih _ _ _ (fun hc => hnm (List.mem_cons_of_mem _ hc)) ?_ ?_
    · simp [heapSet]
    · intro j hj
      rw [heapSet_other _ _ _ _ hj]
      exact hframe j hj

theorem consolidate_at_survivor (h : Heap) (d : Nat) (rest : List Nat)
    (hnd : (d :: rest).Nodup) :
    (consolidateDuplicates h (d :: rest)).1 d =
      (d :: rest).foldl (fun a uid => (mergeInto a (h uid)).1) (h d) := by
  have hdr : d ∉ rest := by
    rw [List.nodup_cons] at hnd
    exact hnd.1
  show ((d :: rest).foldl (consolidateStep ((d :: rest).headD 0)) (h, 2)).1 d = _
  rw [List.foldl_cons, List.foldl_cons]
  have hhead : (d :: rest).headD 0 = d := rfl
  rw [hhead]
  have hstep : consolidateStep d (h, 2) d = (heapSet h d (h d), 2 + 0) := by
    unfold consolidateStep
    rw [mergeInto_self]
  rw [hstep]
  have hpure : (mergeInto (h d) (h d)).1 = h d := by rw [mergeInto_self]
  rw [hpure]
  refine consolidateFold_tail h d rest _ _ _ hdr ?_ ?_
  · simp [heapSet]
  · intro j hj
    exact heapSet_other _ _ _ _ hj

/-! ## Closed forms of the merge accumulator -/

theorem lastDefined_from (f : Field) :
    ∀ (rs : List Record) (o : Option Value) (dflt : Value),
      (rs.foldl (fun a r => if hasProp r f then some (getProp r f) else a) o).getD dflt =
        (lastDefined rs f).getD (o.getD dflt) := by
  intro rs
  induction rs with
  | nil => intro o dflt; rfl
  | cons r rest ih =>
    intro o dflt
    rw [List.foldl_cons]
    show (rest.foldl _ (if hasProp r f then some (getProp r f) else o)).getD dflt = _
    by_cases hr : hasProp r f
    · rw [if_pos hr, ih]
      have hR : lastDefined (r :: rest) f =
          rest.foldl (fun a r => if hasProp r f then some (getProp r f) else a)
            (some (getProp r f)) := by
        unfold lastDefined
        rw [List.foldl_cons, if_pos hr]
      rw [hR, ih]
      rfl
    · rw [if_neg hr, ih]
      have hR : lastDefined (r :: rest) f =
          rest.foldl (fun a r => if hasProp r f then some (getProp r f) else a) none := by
        unfold lastDefined
        rw [List.foldl_cons, if_neg hr]
      rw [hR]
      show (lastDefined rest f).getD (o.getD dflt) = (lastDefined rest f).getD _
      rfl

theorem mergeRun_getProp (f : Field) :
    ∀ (rs : List Record) (acc : Record),
      getProp (rs.foldl (fun a r => (mergeInto a r).1) acc) f =
        (lastDefined rs f).getD (getProp acc f) := by
  intro rs
  induction rs with
  | nil => intro acc; rfl
  | cons r rest ih =>
    intro acc
    rw [List.foldl_cons, ih, mergeInto_getProp]
    unfold lastDefined
    rw [List.foldl_cons]
    by_cases hr : hasProp r f
    · rw [if_pos hr, if_pos hr]
      exact (lastDefined_from f rest (some (getProp r f)) (getProp acc f)).symm
    · rw [if_neg hr, if_neg hr]

theorem mergeRun_hasProp (f : Field) :
    ∀ (rs : List Record) (acc : Record),
      hasProp (rs.foldl (fun a r => (mergeInto a r).1) acc) f =
        (hasProp acc f || rs.any (fun r => hasProp r f)) := by
  intro rs
  induction rs with
  | nil => intro acc; simp
  | cons r rest ih =>
    intro acc
    rw [List.foldl_cons, ih, mergeInto_hasProp, List.any_cons, Bool.or_assoc]

theorem lastDefined_none (f : Field) :
    ∀ (rs : List Record), lastDefined rs f = none → ∀ r ∈ rs, hasProp r f = false := by
  have habs : ∀ (rs : List Record) (v : Value),
      rs.foldl (fun a r => if hasProp r f then some (getProp r f) else a) (some v) ≠
        none := by
    intro rs
    induction rs with
    | nil => intro v h; exact Option.noConfusion h
    | cons r rest ih =>
      intro v h
      rw [List.foldl_cons] at h
      by_cases hr : hasProp r f
      · rw [if_pos hr] at h
        exact ih _ h
      · rw [if_neg hr] at h
        exact ih _ h
  intro rs
  induction rs with
  | nil => intro _ r hr; exact absurd hr (List.not_mem_nil r)
  | cons p rest ih =>
    intro hnone r hr
    unfold lastDefined at hnone
    rw [List.foldl_cons] at hnone
    by_cases hp : hasProp p f
    · rw [if_pos hp] at hnone
      exact absurd hnone (habs rest (getProp p f))
    · rw [if_neg hp] at hnone
      rcases List.mem_cons.mp hr with h | h
      · rw [h]
        exact bool_eq_false hp
      · exact ih hnone r h

theorem lastDefined_fold_some (f : Field) :
    ∀ (rs : List Record) (o : Option Value) (v : Value),
      rs.foldl (fun a r => if hasProp r f then some (getProp r f) else a) o = some v →
      o = some v ∨ ∃ r ∈ rs, v = getProp r f := by
  intro rs
  induction rs with
  | nil => intro o v h; exact Or.inl h
  | cons r rest ih =>
    intro o v h
    rw [List.foldl_cons] at h
    rcases ih _ v h with h1 | ⟨q, hq, hv⟩
    · by_cases hr : hasProp r f
      · rw [if_pos hr] at h1
        exact Or.inr ⟨r, List.mem_cons_self _ _, (Option.some.inj h1).symm⟩
      · rw [if_neg hr] at h1
        exact Or.inl h1
    · exact Or.inr ⟨q, List.mem_cons_of_mem _ hq, hv⟩

theorem lastDefined_some (f : Field) (rs : List Record) (v : Value)
    (h : lastDefined rs f = some v) : ∃ r ∈ rs, v = getProp r f := by
  rcases lastDefined_fold_some f rs none v h with h1 | h2
  · exact Option.noConfusion h1
  · exact h2

/-! ## Theorems -/

/-- C1 counterexample.  A single input record with the two default
keys produces a candidate list with a single entry, although each
key's partition has one bucket — the claimed concatenation across all
keys would contain one contribution per key, i.e. two entries.  The
inner `var consolidatedUsers = []` re-initialization discards every
key's contributions except the last key's. -/
theorem C1_counterexample :
    (getConsolidatedUserList hC1 (transformUsersToHashByKeys hC1 [0] KEYS_WITH_DUPES)
        KEYS_WITH_DUPES).2.1 = [0] ∧
    ((alookup (transformUsersToHashByKeys hC1 [0] KEYS_WITH_DUPES) "_id").getD []).length
        = 1 ∧
    ((alookup (transformUsersToHashByKeys hC1 [0] KEYS_WITH_DUPES) "email").getD []).length
        = 1 ∧
    (getConsolidatedUserList hC1 (transformUsersToHashByKeys hC1 [0] KEYS_WITH_DUPES)
        KEYS_WITH_DUPES).2.1.length ≠
      ((alookup (transformUsersToHashByKeys hC1 [0] KEYS_WITH_DUPES) "_id").getD []).length
        + ((alookup (transformUsersToHashByKeys hC1 [0] KEYS_WITH_DUPES) "email").getD
            []).length := by
  refine ⟨rfl, rfl, rfl, by decide⟩

/-- C2 counterexample.  No key has a repeated value (the two `_id`s
differ and the two `email`s differ), yet the scan reports `"x"` as a
still-duplicate marker, because the seen-value list is shared across
keys and record 0's `_id` equals record 1's `email`. -/
theorem C2_counterexample :
    getListOfDuplicateValues hC2 [0, 1] KEYS_WITH_DUPES = [.vStr "x"] ∧
    getProp (hC2 0) "_id" ≠ getProp (hC2 1) "_id" ∧
    getProp (hC2 0) "email" ≠ getProp (hC2 1) "email" := by
  refine ⟨rfl, by decide, by decide⟩

/-- C3 counterexample.  For the `_id` duplicate group `[0, 1]` built
by the index (record 0 chronologically oldest), the merged record's
`email` — a configured identifying key — is the newest record's
`"b"`, not the oldest record's `"a"`. -/
theorem C3_counterexample :
    alookup (transformUsersToHashByKeys hC3 [0, 1] KEYS_WITH_DUPES) "_id"
      = some [("1", [0, 1])] ∧
    strLe (entryKey (hC3 0)) (entryKey (hC3 1)) = true ∧
    getProp ((consolidateDuplicates hC3 [0, 1]).1 (consolidateDuplicates hC3 [0, 1]).2.1)
      "email" = .vStr "b" ∧
    getProp (hC3 0) "email" = .vStr "a" ∧
    Value.vStr "b" ≠ Value.vStr "a" := by
  refine ⟨rfl, rfl, rfl, rfl, by decide⟩

/-- C5 counterexample.  With `_id` values number `1` and string `"1"`
(strictly distinct, loosely equal, with the same property key `"1"`),
the second record is pushed twice into the shared bucket: the bucket
sizes of the `_id` partition sum to 3 for a 2-record input. -/
theorem C5_counterexample :
    alookup (transformUsersToHashByKeys hC5 [0, 1] ["_id"]) "_id"
      = some [("1", [0, 1, 1])] ∧
    bucketSizeSum ((alookup (transformUsersToHashByKeys hC5 [0, 1] ["_id"]) "_id").getD [])
      = 3 ∧
    ([0, 1] : List Nat).length = 2 ∧ (3 : Nat) ≠ 2 := by
  refine ⟨rfl, rfl, rfl, by decide⟩

/-- C6: evaluation of the code at the failing input.  Two records
share `_id` `"1"` but the chronologically newer record comes first in
the input; the index bucket keeps input order `[0, 1]` — not ascending
`entryDate` order, since record 0's date is the larger — and the merge
consequently ends with the stale value `"Old"` for `name`, although
the file header documents that duplicates are ordered by date with the
oldest first so that the result holds the most up-to-date data. -/
theorem C6_bucket_input_order :
    alookup (transformUsersToHashByKeys hC6 [0, 1] ["_id"]) "_id"
      = some [("1", [0, 1])] ∧
    entryKey (hC6 0) = "2021-01-01" ∧
    entryKey (hC6 1) = "2020-01-01" ∧
    strLe (entryKey (hC6 0)) (entryKey (hC6 1)) = false ∧
    getProp ((consolidateDuplicates hC6 [0, 1]).1 0) "name" = .vStr "Old" := by
  refine ⟨rfl, rfl, rfl, rfl, rfl⟩

/-- C7 counterexample.  On `hC7` resolve finishes in one pass and
returns `[0, 1]`, whose `_id` values are the number `1` and the string
`"1"`: strictly distinct (so the residual scan is silent) but bucketed
together on a re-run.  Re-running resolve on this, its own output,
takes 2 passes — the recursion of step 4 is taken — and returns the
shorter list `[0]`, so the re-run is neither a single pass nor a
no-op. -/
theorem C7_counterexample :
    (getResolveDuplicates 9 hC7 [0, 1, 2] KEYS_WITH_DUPES).map
        (fun t => (t.2.1, t.2.2.1)) = some ([0, 1], 1) ∧
    (getResolveDuplicates 9 hC7' outC7 KEYS_WITH_DUPES).map
        (fun t => (t.2.1, t.2.2.1)) = some ([0], 2) ∧
    (2 : Nat) ≠ 1 := by
  refine ⟨rfl, rfl, by decide⟩

/-- C8: Scenario A.  On the two-record input that shares `_id` and
`email`, with the newer record second, resolve returns exactly one
record, and that record is
`{_id: 1, email: "a@x.com", entryDate: "2021-01-01", name: "Alice"}`. -/
theorem C8_scenarioA :
    (getResolveDuplicates 3 hC8 [0, 1] KEYS_WITH_DUPES).map (fun t => t.2.1)
      = some [0] ∧
    finalRecC8 =
      [("_id", .vNum 1), ("email", .vStr "a@x.com"),
       ("entryDate", .vStr "2021-01-01"), ("name", .vStr "Alice")] := by
  refine ⟨rfl, rfl⟩

/-- C9 counterexample.  The four key values `"a"`, `2`, `"b"`, `1` are
pairwise distinct, so no two records share a value for any configured
key, yet resolve returns `[1, 0]` — the input reversed — because the
numeric email values become the array-index-like bucket property keys
`"2"` and `"1"`, which JS `for (var k in ...)` enumerates in ascending
numeric order instead of insertion order. -/
theorem C9_counterexample :
    (getResolveDuplicates 2 hC9 [0, 1] KEYS_WITH_DUPES).map (fun t => t.2.1)
      = some [1, 0] ∧
    (positionsVals hC9 [0, 1] KEYS_WITH_DUPES).Nodup ∧
    ([1, 0] : List Nat) ≠ [0, 1] := by
  refine ⟨rfl, by decide, by decide⟩

/-- C10: merging a non-empty bucket returns the id of the bucket's
first element as the survivor — the very record object mutated in
place to hold the consolidated fields — and leaves the record at every
other id (in particular every other bucket member) unchanged on the
heap. -/
theorem C10_survivor_frame (h : Heap) (dupes : List Nat) (d j : Nat) (rest : List Nat)
    (hd : dupes = d :: rest) (hj : j ≠ d) :
    (consolidateDuplicates h dupes).2.1 = d ∧
      (consolidateDuplicates h dupes).1 j = h j := by
  subst hd
  exact ⟨rfl, consolidate_frame h (d :: rest) j hj⟩

theorem C10_witness :
    ([0, 1] : List Nat) = 0 :: [1] ∧ (5 : Nat) ≠ 0 ∧
      ((consolidateDuplicates hC3 [0, 1]).2.1 = 0 ∧
        (consolidateDuplicates hC3 [0, 1]).1 5 = hC3 5) :=
  ⟨rfl, by decide, C10_survivor_frame hC3 [0, 1] 0 5 [1] rfl (by decide)⟩

/-- C4: for a non-empty group of distinct records ordered oldest-first
by `entryDate`, the merged record's field set is the union of the
group's field sets, and each field's value is the value of the
chronologically newest (i.e. last) record of the group that defines
the field — which is also the value of the newest record that defined
a value differing from the accumulated state, since every definer
after it left the accumulator unchanged. -/
theorem C4_union_last_writer (h : Heap) (d : Nat) (rest : List Nat) (f : Field)
    (hnd : (d :: rest).Nodup)
    (_hsort : sortedAsc ((d :: rest).map (fun i => entryKey (h i))) = true) :
    hasProp ((consolidateDuplicates h (d :: rest)).1 d) f
        = ((d :: rest).map (fun i => h i)).any (fun r => hasProp r f) ∧
      getProp ((consolidateDuplicates h (d :: rest)).1 d) f
        = (lastDefined ((d :: rest).map (fun i => h i)) f).getD .vUndefined := by
  rw [consolidate_at_survivor h d rest hnd]
  rw [show (d :: rest).foldl (fun a uid => (mergeInto a (h uid)).1) (h d)
      = ((d :: rest).map (fun i => h i)).foldl (fun a r => (mergeInto a r).1) (h d) from
      (List.foldl_map (fun i => h i) (fun a r => (mergeInto a r).1)
        (d :: rest) (h d)).symm]
  rw [mergeRun_hasProp, mergeRun_getProp]
  constructor
  · rw [List.map_cons, List.any_cons]
    cases hhd : hasProp (h d) f <;> simp
  · rcases hld : lastDefined ((d :: rest).map (fun i => h i)) f with _ | v
    · have hdf : hasProp (h d) f = false :=
        lastDefined_none f _ hld (h d)
          (by rw [List.map_cons]; exact List.mem_cons_self _ _)
      show getProp (h d) f = Value.vUndefined
      exact getProp_not_has (h d) f hdf
    · rfl

theorem C4_witness :
    ([0, 1] : List Nat).Nodup ∧
      sortedAsc (([0, 1] : List Nat).map (fun i => entryKey (hC8 i))) = true ∧
      (hasProp ((consolidateDuplicates hC8 (0 :: [1])).1 0) "name"
          = ((0 :: [1]).map (fun i => hC8 i)).any (fun r => hasProp r "name") ∧
        getProp ((consolidateDuplicates hC8 (0 :: [1])).1 0) "name"
          = (lastDefined ((0 :: [1]).map (fun i => hC8 i)) "name").getD .vUndefined) :=
  ⟨by decide, by decide, C4_union_last_writer hC8 0 [1] "name" (by decide) (by decide)⟩

/-- C3 amended: the merged record is the group's first (oldest) record
object, and its value for a field on which every group record holds
the same value as the oldest — as holds for the group's own bucket key
when the members' key values are strictly equal — equals the oldest
record's value.  A configured identifying key on which a newer record
differs is instead overwritten with the newest differing value, as the
counterexample shows. -/
theorem C3_agreed_key_preserved (h : Heap) (d : Nat) (rest : List Nat) (f : Field)
    (hnd : (d :: rest).Nodup)
    (hagree : ∀ uid ∈ d :: rest, getProp (h uid) f = getProp (h d) f) :
    getProp ((consolidateDuplicates h (d :: rest)).1 d) f = getProp (h d) f := by
  rw [consolidate_at_survivor h d rest hnd]
  rw [show (d :: rest).foldl (fun a uid => (mergeInto a (h uid)).1) (h d)
      = ((d :: rest).map (fun i => h i)).foldl (fun a r => (mergeInto a r).1) (h d) from
      (List.foldl_map (fun i => h i) (fun a r => (mergeInto a r).1)
        (d :: rest) (h d)).symm]
  rw [mergeRun_getProp]
  rcases hld : lastDefined ((d :: rest).map (fun i => h i)) f with _ | v
  · rfl
  · rcases lastDefined_some f _ v hld with ⟨r, hr, hv⟩
    rcases List.mem_map.mp hr with ⟨uid, huid, hru⟩
    show v = getProp (h d) f
    rw [hv, ← hru]
    exact hagree uid huid

theorem C3_witness :
    ([0, 1] : List Nat).Nodup ∧
      (∀ uid ∈ (0 : Nat) :: [1], getProp (hC8 uid) "_id" = getProp (hC8 0) "_id") ∧
      getProp ((consolidateDuplicates hC8 (0 :: [1])).1 0) "_id" = getProp (hC8 0) "_id" :=
  ⟨by decide, by decide, C3_agreed_key_preserved hC8 0 [1] "_id" (by decide) (by decide)⟩

/-- C7 amended: whenever resolve returns (the recursion reaches its
fixed point within the given fuel), the returned list passes the
residual-duplicate scan on the returned heap: `getListOfDuplicateValues`
reports no value.  The original claim's stronger statement — a re-run
on the output is always a single clean pass — fails (see the
counterexample): the scan compares values strictly while bucketing
coerces, so a returned list can still hold coercion-equal duplicates
that a re-run merges. -/
theorem C7_output_scan_clean (fuel : Nat) (h : Heap) (users : List Nat)
    (keys : List String) (h2 : Heap) (out : List Nat) (passes logs : Nat)
    (hres : getResolveDuplicates fuel h users keys = some (h2, out, passes, logs)) :
    getListOfDuplicateValues h2 out keys = [] := by
  induction fuel generalizing h users h2 out passes logs with
  | zero => exact Option.noConfusion hres
  | succ n ih =>
    simp only [getResolveDuplicates] at hres
    split at hres
    · rcases hrec : getResolveDuplicates n
          (getConsolidatedUserList h (transformUsersToHashByKeys h users keys) keys).1
          (getConsolidatedUserList h (transformUsersToHashByKeys h users keys) keys).2.1
          keys with _ | t
      · rw [hrec] at hres
        exact Option.noConfusion hres
      · rw [hrec] at hres
        rcases t with ⟨th, tout, tp, tl⟩
        have hinj := Option.some.inj hres
        have hh2 : th = h2 := congrArg Prod.fst hinj
        have hout : tout = out := congrArg Prod.fst (congrArg Prod.snd hinj)
        rw [← hh2, ← hout]
        exact ih _ _ _ _ _ _ hrec
    · next hngt =>
      have hinj := Option.some.inj hres
      have hh2 : (getConsolidatedUserList h (transformUsersToHashByKeys h users keys)
          keys).1 = h2 := congrArg Prod.fst hinj
      have hout : (getConsolidatedUserList h (transformUsersToHashByKeys h users keys)
          keys).2.1 = out := congrArg Prod.fst (congrArg Prod.snd hinj)
      rw [← hh2, ← hout]
      have hlen : (getListOfDuplicateValues
          (getConsolidatedUserList h (transformUsersToHashByKeys h users keys) keys).1
          (getConsolidatedUserList h (transformUsersToHashByKeys h users keys) keys).2.1
          keys).length = 0 := Nat.eq_zero_of_not_pos hngt
      exact List.eq_nil_of_length_eq_zero hlen

theorem C7_amended_witness :
    getResolveDuplicates 1 hC1 [0] KEYS_WITH_DUPES
        = some (hC1, [0], 1, 0) ∧
      getListOfDuplicateValues hC1 [0] KEYS_WITH_DUPES = [] :=
  ⟨rfl, C7_output_scan_clean 1 hC1 [0] KEYS_WITH_DUPES hC1 [0] 1 0 rfl⟩

/-! ## Candidate-list structure lemmas (claim C1) -/

theorem processBucketsFold_list :
    ∀ (es : List (String × List Nat)) (st : Heap × List Nat × Nat),
      (es.foldl processBucketsStep st).2.1 =
        st.2.1 ++ es.map (fun e => e.2.headD 0) := by
  intro es
  induction es with
  | nil => intro st; rw [List.map_nil, List.append_nil]; rfl
  | cons e rest ih =>
    intro st
    rw [List.foldl_cons, ih, List.map_cons]
    have hstep : (processBucketsStep st e).2.1 = st.2.1 ++ [e.2.headD 0] := by
      unfold processBucketsStep
      split
      · rfl
      · rfl
    rw [hstep, List.append_assoc]
    rfl

theorem processBuckets_list (h : Heap) (idx : Index) :
    (processBuckets h idx).2.1 = (jsOrderEntries idx).map (fun e => e.2.headD 0) := by
  unfold processBuckets
  rw [processBucketsFold_list]
  rfl

theorem consolidateKeysFold_list (userHash : UserHash) :
    ∀ (keys : List String) (p : Heap × List Nat × Nat), keys ≠ [] →
      (keys.foldl (consolidateKeyStep userHash) p).2.1 =
        (jsOrderEntries ((alookup userHash (keys.getLast?.getD "")).getD [])).map
          (fun e => e.2.headD 0) := by
  intro keys
  induction keys with
  | nil => intro p hp; exact absurd rfl hp
  | cons k rest ih =>
    intro p _
    rw [List.foldl_cons]
    cases rest with
    | nil =>
      show (consolidateKeyStep userHash p k).2.1 = _
      unfold consolidateKeyStep
      exact processBuckets_list _ _
    | cons k2 t =>
      rw [ih _ (List.cons_ne_nil k2 t)]
      rfl

theorem consolidatedOuterFold_list (userHash : UserHash) (keys : List String)
    (hk : keys ≠ []) :
    ∀ (names : List String) (p : Heap × List Nat × Nat), names ≠ [] →
      (names.foldl (fun q _ => keys.foldl (consolidateKeyStep userHash) q) p).2.1 =
        (jsOrderEntries ((alookup userHash (keys.getLast?.getD "")).getD [])).map
          (fun e => e.2.headD 0) := by
  intro names
  induction names with
  | nil => intro p hp; exact absurd rfl hp
  | cons n rest ih =>
    intro p _
    rw [List.foldl_cons]
    cases rest with
    | nil => exact consolidateKeysFold_list userHash keys p hk
    | cons n2 t => exact ih _ (List.cons_ne_nil n2 t)

theorem aset_ne_nil {α : Type} (l : List (String × α)) (k : String) (v : α) :
    aset l k v ≠ [] := by
  unfold aset
  split
  next hany =>
    intro hc
    rw [List.map_eq_nil_iff] at hc
    subst hc
    simp at hany
  next hany =>
    intro hc
    exact absurd hc (List.append_ne_nil_of_right_ne_nil l (List.cons_ne_nil _ _))

theorem foldl_aset_ne_nil {α : Type} (e : α) :
    ∀ (keys : List String) (l : List (String × α)), l ≠ [] →
      (keys.foldl (fun acc k => aset acc k e) l) ≠ [] := by
  intro keys
  induction keys with
  | nil => intro l hl; exact hl
  | cons k rest ih =>
    intro l _
    rw [List.foldl_cons]
    exact ih _ (aset_ne_nil l k e)

theorem initUserHash_ne_nil (keys : List String) (hk : keys ≠ []) :
    initUserHash keys ≠ [] := by
  unfold initUserHash
  cases keys with
  | nil => exact absurd rfl hk
  | cons k rest =>
    rw [List.foldl_cons]
    exact foldl_aset_ne_nil [] rest _ (aset_ne_nil [] k [])

theorem processUserKeyFold_hash_ne_nil (h : Heap) (uid : Nat) :
    ∀ (names : List String) (st : KeyListState × UserHash), st.2 ≠ [] →
      (names.foldl (processUserKey h uid) st).2 ≠ [] := by
  intro names
  induction names with
  | nil => intro st hst; exact hst
  | cons n rest ih =>
    intro st _
    rw [List.foldl_cons]
    exact ih _ (aset_ne_nil _ _ _)

theorem transform_ne_nil (h : Heap) (users : List Nat) (keys : List String)
    (hk : keys ≠ []) : transformUsersToHashByKeys h users keys ≠ [] := by
  unfold transformUsersToHashByKeys
  have : ∀ (us : List Nat) (st : KeyListState × UserHash), st.2 ≠ [] →
      (us.foldl (transformStep h) st).2 ≠ [] := by
    intro us
    induction us with
    | nil => intro st hst; exact hst
    | cons u rest ih =>
      intro st hst
      rw [List.foldl_cons]
      exact ih _ (processUserKeyFold_hash_ne_nil h u _ _ hst)
  exact this users _ (initUserHash_ne_nil keys hk)

/-- C1 amended: the candidate list produced by one consolidation pass
is not the concatenation of contributions across all keys; because the
inner loop re-initializes the list, it holds exactly one contribution
per bucket of the LAST configured key's partition, in JS bucket
enumeration order — for every bucket the contribution is the bucket's
first record's id (the merge survivor for buckets of size > 1, the
lone record otherwise).  Earlier keys' contributions are discarded,
although their merges' heap mutations and log output persist. -/
theorem C1_candidates_last_key (h : Heap) (users : List Nat) (keys : List String)
    (hk : keys ≠ []) :
    (getConsolidatedUserList h (transformUsersToHashByKeys h users keys) keys).2.1 =
      (jsOrderEntries ((alookup (transformUsersToHashByKeys h users keys)
          (keys.getLast?.getD "")).getD [])).map (fun e => e.2.headD 0) := by
  have hne := transform_ne_nil h users keys hk
  have hnames : ((jsOrderEntries (transformUsersToHashByKeys h users keys)).map
      (fun p => p.1)) ≠ [] := by
    intro hc
    rw [List.map_eq_nil_iff] at hc
    exact hne ((jsOrderEntries_eq_nil _).mp hc)
  exact consolidatedOuterFold_list _ keys hk _ _ hnames

theorem C1_witness :
    KEYS_WITH_DUPES ≠ [] ∧
      (getConsolidatedUserList hC1 (transformUsersToHashByKeys hC1 [0] KEYS_WITH_DUPES)
          KEYS_WITH_DUPES).2.1 =
        (jsOrderEntries ((alookup (transformUsersToHashByKeys hC1 [0] KEYS_WITH_DUPES)
            (KEYS_WITH_DUPES.getLast?.getD "")).getD [])).map (fun e => e.2.headD 0) :=
  ⟨by decide, C1_candidates_last_key hC1 [0] KEYS_WITH_DUPES (by decide)⟩

/-! ## Duplicate-scan lemmas (claim C2) -/

theorem scan_flatten (h : Heap) (keys : List String) :
    ∀ (users : List Nat) (st : List Value × List Value),
      users.foldl (scanUserStep h keys) st =
        (positionsVals h users keys).foldl scanStep st := by
  intro users
  induction users with
  | nil => intro st; rfl
  | cons u us ih =>
    intro st
    rw [List.foldl_cons, ih]
    have hpos : positionsVals h (u :: us) keys =
        keys.map (fun k => getProp (h u) k) ++ positionsVals h us keys := by
      unfold positionsVals
      rw [List.map_cons, List.flatten_cons]
    rw [hpos, List.foldl_append]
    have huser : scanUserStep h keys st u =
        (keys.map (fun k => getProp (h u) k)).foldl scanStep st := by
      unfold scanUserStep
      rw [List.foldl_map]
    rw [huser]

theorem scanRun_mem (v : Value) :
    ∀ (vs : List Value) (st : List Value × List Value),
      v ∈ (vs.foldl scanStep st).2 ↔
        v ∈ st.2 ∨ (v ∈ st.1 ∧ 1 ≤ vs.count v) ∨ 2 ≤ vs.count v := by
  intro vs
  induction vs with
  | nil =>
    intro st
    simp
  | cons w ws ih =>
    intro st
    rw [List.foldl_cons]
    by_cases hw : st.1.contains w
    · have hst : scanStep st w = (st.1, st.2 ++ [w]) := by
        unfold scanStep
        rw [if_pos hw]
      rw [hst, ih]
      by_cases hvw : v = w
      · subst hvw
        have hv1 : v ∈ st.1 := List.elem_iff.mp hw
        refine iff_of_true ?_ ?_
        · exact Or.inl (List.mem_append.mpr (Or.inr (List.mem_singleton.mpr rfl)))
        · exact Or.inr (Or.inl ⟨hv1, by rw [List.count_cons_self]; omega⟩)
      · have hmm : v ∈ st.2 ++ [w] ↔ v ∈ st.2 := by
          rw [List.mem_append, List.mem_singleton]
          exact or_iff_left hvw
        rw [List.count_cons_of_ne hvw]
        show (v ∈ st.2 ++ [w] ∨ _ ∨ _) ↔ _
        rw [hmm]
    · have hst : scanStep st w = (st.1 ++ [w], st.2) := by
        unfold scanStep
        rw [if_neg hw]
      rw [hst, ih]
      by_cases hvw : v = w
      · subst hvw
        have hv1 : v ∉ st.1 := fun hc => hw (List.elem_iff.mpr hc)
        rw [List.count_cons_self]
        constructor
        · rintro (hmem | ⟨_, hc⟩ | hc)
          · exact Or.inl hmem
          · exact Or.inr (Or.inr (by omega))
          · exact Or.inr (Or.inr (by omega))
        · rintro (hmem | ⟨hmem, _⟩ | hc)
          · exact Or.inl hmem
          · exact absurd hmem hv1
          · refine Or.inr (Or.inl ⟨?_, by omega⟩)
            exact List.mem_append.mpr (Or.inr (List.mem_singleton.mpr rfl))
      · have hmm : v ∈ st.1 ++ [w] ↔ v ∈ st.1 := by
          rw [List.mem_append, List.mem_singleton]
          exact or_iff_left hvw
        rw [List.count_cons_of_ne hvw]
        show (_ ∨ (v ∈ st.1 ++ [w] ∧ _) ∨ _) ↔ _
        rw [hmm]

/-- C2 corrected: the residual-duplicate scan reports a value exactly
when it occurs at two or more (record, key) positions overall — with
one seen-value list shared across ALL configured keys, not one per
key, so a value occurring under one key and again under a different
key is also reported. -/
theorem C2_shared_seen_list (h : Heap) (users : List Nat) (keys : List String)
    (v : Value) :
    v ∈ getListOfDuplicateValues h users keys ↔
      2 ≤ (positionsVals h users keys).count v := by
  unfold getListOfDuplicateValues
  rw [scan_flatten h keys users ([], [])]
  rw [scanRun_mem v (positionsVals h users keys) ([], [])]
  simp

/-! ## Association-list lemmas -/

theorem alookup_cons {α : Type} (p : String × α) (l : List (String × α)) (k : String) :
    alookup (p :: l) k = if p.1 = k then some p.2 else alookup l k := by
  by_cases hp : p.1 = k <;>
    simp [alookup, List.find?_cons_of_pos, List.find?_cons_of_neg, hp]

theorem alookup_map_set {α : Type} (l : List (String × α)) (k : String) (v : α)
    (hf : l.any (fun p => p.1 = k) = true) :
    alookup (l.map (fun p => if p.1 = k then (k, v) else p)) k = some v := by
  induction l with
  | nil => simp at hf
  | cons p ps ih =>
    by_cases hp : p.1 = k
    · simp only [List.map_cons, if_pos hp]
      rw [alookup_cons]
      simp
    · simp only [List.map_cons, if_neg hp]
      rw [alookup_cons, if_neg hp]
      rw [List.any_cons, Bool.or_eq_true_iff] at hf
      exact ih (hf.resolve_left (by simpa using hp))

theorem alookup_map_other {α : Type} (l : List (String × α)) (k k2 : String) (v : α)
    (hk : k2 ≠ k) :
    alookup (l.map (fun p => if p.1 = k then (k, v) else p)) k2 = alookup l k2 := by
  induction l with
  | nil => rfl
  | cons p ps ih =>
    by_cases hp : p.1 = k
    · simp only [List.map_cons, if_pos hp]
      rw [alookup_cons, alookup_cons, if_neg (fun h => hk h.symm),
        if_neg (fun h : p.1 = k2 => hk (hp ▸ h).symm)]
      exact ih
    · simp only [List.map_cons, if_neg hp]
      rw [alookup_cons, alookup_cons, ih]

theorem alookup_append_new {α : Type} (l : List (String × α)) (k : String) (v : α)
    (hf : l.any (fun p => p.1 = k) = false) :
    alookup (l ++ [(k, v)]) k = some v := by
  induction l with
  | nil => simp [alookup, List.find?]
  | cons p ps ih =>
    rw [List.any_cons, Bool.or_eq_false_iff] at hf
    rw [List.cons_append, alookup_cons, if_neg (by simpa using hf.1)]
    exact ih hf.2

theorem alookup_append_other {α : Type} (l : List (String × α)) (k k2 : String) (v : α)
    (hk : k2 ≠ k) :
    alookup (l ++ [(k, v)]) k2 = alookup l k2 := by
  induction l with
  | nil =>
    rw [List.nil_append]
    show alookup ((k, v) :: []) k2 = alookup [] k2
    rw [alookup_cons, if_neg (fun h => hk h.symm)]
  | cons p ps ih =>
    rw [List.cons_append, alookup_cons, alookup_cons, ih]

theorem aset_alookup_eq {α : Type} (l : List (String × α)) (k : String) (v : α) :
    alookup (aset l k v) k = some v := by
  unfold aset
  split
  next hany => exact alookup_map_set l k v hany
  next hany => exact alookup_append_new l k v (bool_eq_false hany)

theorem aset_alookup_other {α : Type} (l : List (String × α)) (k k2 : String) (v : α)
    (hk : k2 ≠ k) :
    alookup (aset l k v) k2 = alookup l k2 := by
  unfold aset
  split
  · exact alookup_map_other l k k2 v hk
  · exact alookup_append_other l k k2 v hk

theorem aset_names_eq {α : Type} (l : List (String × α)) (k : String) (v : α)
    (hf : l.any (fun p => p.1 = k) = true) :
    (aset l k v).map (fun p => p.1) = l.map (fun p => p.1) := by
  unfold aset
  rw [if_pos hf, List.map_map]
  refine List.map_congr_left ?_
  intro p _
  by_cases hp : p.1 = k
  · simp [hp]
  · simp [hp]

theorem aset_names_append {α : Type} (l : List (String × α)) (k : String) (v : α)
    (hf : l.any (fun p => p.1 = k) = false) :
    (aset l k v).map (fun p => p.1) = l.map (fun p => p.1) ++ [k] := by
  unfold aset
  rw [if_neg (by rw [hf]; exact Bool.false_ne_true), List.map_append]
  rfl

theorem any_fst_mem {α : Type} (l : List (String × α)) (k : String) :
    l.any (fun p => p.1 = k) = true ↔ k ∈ l.map (fun p => p.1) := by
  rw [List.any_eq_true]
  constructor
  · rintro ⟨p, hp, hpk⟩
    exact List.mem_map.mpr ⟨p, hp, of_decide_eq_true hpk⟩
  · rintro hmem
    rcases List.mem_map.mp hmem with ⟨p, hp, hpk⟩
    exact ⟨p, hp, decide_eq_true hpk⟩

theorem alookup_eq_none {α : Type} (l : List (String × α)) (k : String)
    (hf : ∀ p ∈ l, p.1 ≠ k) : alookup l k = none := by
  unfold alookup
  rw [List.find?_eq_none.mpr (fun p hp => by simpa using hf p hp)]
  rfl

theorem alookup_any {α : Type} (l : List (String × α)) (k : String) (b : α)
    (h : alookup l k = some b) : l.any (fun p => p.1 = k) = true := by
  induction l with
  | nil => exact Option.noConfusion h
  | cons p ps ih =>
    rw [alookup_cons] at h
    rw [List.any_cons]
    by_cases hp : p.1 = k
    · rw [decide_eq_true hp, Bool.true_or]
    · rw [if_neg hp] at h
      rw [ih h, Bool.or_true]

/-! ## Per-key projection of the index construction -/

theorem processUserKey_proj_eq (h : Heap) (uid : Nat) (st : KeyListState × UserHash)
    (key : String) :
    ((alookup (processUserKey h uid st key).1 key).getD [],
      (alookup (processUserKey h uid st key).2 key).getD []) =
      perKeyStep h key ((alookup st.1 key).getD [], (alookup st.2 key).getD []) uid := by
  unfold processUserKey perKeyStep
  simp only [aset_alookup_eq, Option.getD_some]

theorem processUserKey_proj_ne (h : Heap) (uid : Nat) (st : KeyListState × UserHash)
    (name key : String) (hne : name ≠ key) :
    alookup (processUserKey h uid st name).1 key = alookup st.1 key ∧
      alookup (processUserKey h uid st name).2 key = alookup st.2 key := by
  unfold processUserKey
  exact ⟨aset_alookup_other _ _ _ _ (fun hc => hne hc.symm),
    aset_alookup_other _ _ _ _ (fun hc => hne hc.symm)⟩

theorem namesFold_proj_skip (h : Heap) (uid : Nat) (key : String) :
    ∀ (names : List String) (st : KeyListState × UserHash), key ∉ names →
      alookup ((names.foldl (processUserKey h uid) st)).1 key = alookup st.1 key ∧
      alookup ((names.foldl (processUserKey h uid) st)).2 key = alookup st.2 key := by
  intro names
  induction names with
  | nil => intro st _; exact ⟨rfl, rfl⟩
  | cons n rest ih =>
    intro st hkey
    have hn : n ≠ key := fun hc => hkey (hc ▸ List.mem_cons_self _ _)
    have hrest : key ∉ rest := fun hc => hkey (List.mem_cons_of_mem _ hc)
    rw [List.foldl_cons]
    have hstep := processUserKey_proj_ne h uid st n key hn
    have hfold := ih (processUserKey h uid st n) hrest
    exact ⟨hfold.1.trans hstep.1, hfold.2.trans hstep.2⟩

theorem namesFold_proj (h : Heap) (uid : Nat) (key : String) :
    ∀ (names : List String) (st : KeyListState × UserHash),
      names.Nodup → key ∈ names →
      ((alookup ((names.foldl (processUserKey h uid) st)).1 key).getD [],
        (alookup ((names.foldl (processUserKey h uid) st)).2 key).getD []) =
        perKeyStep h key ((alookup st.1 key).getD [], (alookup st.2 key).getD []) uid := by
  intro names
  induction names with
  | nil => intro st _ hkey; exact absurd hkey (List.not_mem_nil key)
  | cons n rest ih =>
    intro st hnd hkey
    rw [List.nodup_cons] at hnd
    rw [List.foldl_cons]
    by_cases hn : n = key
    · subst hn
      have hskip := namesFold_proj_skip h uid n rest (processUserKey h uid st n) hnd.1
      rw [hskip.1, hskip.2]
      exact processUserKey_proj_eq h uid st n
    · have hrest : key ∈ rest := by
        rcases List.mem_cons.mp hkey with hc | hc
        · exact absurd hc.symm hn
        · exact hc
      have hstep := processUserKey_proj_ne h uid st n key hn
      rw [ih (processUserKey h uid st n) hnd.2 hrest, hstep.1, hstep.2]

theorem namesFold_names (h : Heap) (uid : Nat) :
    ∀ (names : List String) (st : KeyListState × UserHash),
      (∀ n ∈ names, n ∈ st.1.map (fun p => p.1)) →
      ((names.foldl (processUserKey h uid) st)).1.map (fun p => p.1) =
        st.1.map (fun p => p.1) := by
  intro names
  induction names with
  | nil => intro st _; rfl
  | cons n rest ih =>
    intro st hmem
    rw [List.foldl_cons]
    have hstep : (processUserKey h uid st n).1.map (fun p => p.1) =
        st.1.map (fun p => p.1) := by
      unfold processUserKey
      exact aset_names_eq _ _ _ ((any_fst_mem _ _).mpr (hmem n (List.mem_cons_self _ _)))
    rw [ih (processUserKey h uid st n)
      (fun x hx => hstep ▸ hmem x (List.mem_cons_of_mem _ hx)), hstep]

theorem usersFold_proj (h : Heap) (key : String) :
    ∀ (users : List Nat) (st : KeyListState × UserHash),
      (st.1.map (fun p => p.1)).Nodup → key ∈ st.1.map (fun p => p.1) →
      ((alookup ((users.foldl (transformStep h) st)).1 key).getD [],
        (alookup ((users.foldl (transformStep h) st)).2 key).getD []) =
        users.foldl (perKeyStep h key)
          ((alookup st.1 key).getD [], (alookup st.2 key).getD []) := by
  intro users
  induction users with
  | nil => intro st _ _; rfl
  | cons u us ih =>
    intro st hnd hkey
    rw [List.foldl_cons, List.foldl_cons]
    have hperm : List.Perm ((jsOrderEntries st.1).map (fun p => p.1))
        (st.1.map (fun p => p.1)) := (jsOrderEntries_perm st.1).map _
    have hjnd : ((jsOrderEntries st.1).map (fun p => p.1)).Nodup := hnd.perm hperm.symm
    have hjkey : key ∈ (jsOrderEntries st.1).map (fun p => p.1) := hperm.mem_iff.mpr hkey
    have hjsub : ∀ n ∈ (jsOrderEntries st.1).map (fun p => p.1),
        n ∈ st.1.map (fun p => p.1) := fun n hn => hperm.mem_iff.mp hn
    have hstep : ((alookup (transformStep h st u).1 key).getD [],
        (alookup (transformStep h st u).2 key).getD []) =
        perKeyStep h key ((alookup st.1 key).getD [], (alookup st.2 key).getD []) u := by
      unfold transformStep
      exact namesFold_proj h u key _ st hjnd hjkey
    have hnames : (transformStep h st u).1.map (fun p => p.1) =
        st.1.map (fun p => p.1) := by
      unfold transformStep
      exact namesFold_names h u _ st hjsub
    have := ih (transformStep h st u) (hnames ▸ hnd) (hnames ▸ hkey)
    rw [this, hstep]

theorem foldl_aset_alookup {α : Type} (e : α) (key : String) :
    ∀ (keys : List String) (l : List (String × α)),
      (key ∈ keys ∨ alookup l key = some e) →
      alookup (keys.foldl (fun acc k => aset acc k e) l) key = some e := by
  intro keys
  induction keys with
  | nil =>
    intro l hl
    rcases hl with hc | hc
    · exact absurd hc (List.not_mem_nil key)
    · exact hc
  | cons k rest ih =>
    intro l hl
    rw [List.foldl_cons]
    by_cases hk : k = key
    · subst hk
      exact ih _ (Or.inr (aset_alookup_eq l k e))
    · refine ih _ ?_
      rcases hl with hc | hc
      · rcases List.mem_cons.mp hc with hc2 | hc2
        · exact absurd hc2.symm hk
        · exact Or.inl hc2
      · exact Or.inr ((aset_alookup_other l k key e (fun hc2 => hk hc2.symm)).trans hc)

theorem foldl_aset_names_nodup {α : Type} (e : α) :
    ∀ (keys : List String) (l : List (String × α)),
      (l.map (fun p => p.1)).Nodup →
      ((keys.foldl (fun acc k => aset acc k e) l).map (fun p => p.1)).Nodup := by
  intro keys
  induction keys with
  | nil => intro l hl; exact hl
  | cons k rest ih =>
    intro l hl
    rw [List.foldl_cons]
    refine ih _ ?_
    by_cases hany : l.any (fun p => p.1 = k)
    · rw [aset_names_eq l k e hany]
      exact hl
    · rw [aset_names_append l k e (bool_eq_false hany)]
      have hnk : k ∉ l.map (fun p => p.1) := fun hc =>
        hany ((any_fst_mem l k).mpr hc)
      simp [List.nodup_append, hl, hnk]

theorem foldl_aset_names_mem {α : Type} (e : α) (key : String) :
    ∀ (keys : List String) (l : List (String × α)),
      (key ∈ keys ∨ key ∈ l.map (fun p => p.1)) →
      key ∈ (keys.foldl (fun acc k => aset acc k e) l).map (fun p => p.1) := by
  intro keys
  induction keys with
  | nil =>
    intro l hl
    rcases hl with hc | hc
    · exact absurd hc (List.not_mem_nil key)
    · exact hc
  | cons k rest ih =>
    intro l hl
    rw [List.foldl_cons]
    refine ih _ ?_
    by_cases hany : l.any (fun p => p.1 = k)
    · rw [aset_names_eq l k e hany]
      rcases hl with hc | hc
      · rcases List.mem_cons.mp hc with hc2 | hc2
        · exact Or.inr (hc2 ▸ (any_fst_mem l k).mp hany)
        · exact Or.inl hc2
      · exact Or.inr hc
    · rw [aset_names_append l k e (bool_eq_false hany)]
      rcases hl with hc | hc
      · rcases List.mem_cons.mp hc with hc2 | hc2
        · exact Or.inr (List.mem_append.mpr (Or.inr (hc2 ▸ List.mem_singleton.mpr rfl)))
        · exact Or.inl hc2
      · exact Or.inr (List.mem_append.mpr (Or.inl hc))

theorem transform_proj (h : Heap) (users : List Nat) (keys : List String) (key : String)
    (hk : key ∈ keys) :
    (alookup (transformUsersToHashByKeys h users keys) key).getD [] =
      (users.foldl (perKeyStep h key) ([], [])).2 := by
  unfold transformUsersToHashByKeys generateKeyList initUserHash
  have base1 : alookup (keys.foldl (fun kl k => aset kl k ([] : List Value)) []) key
      = some [] := foldl_aset_alookup [] key keys [] (Or.inl hk)
  have base2 : alookup (keys.foldl (fun hh k => aset hh k ([] : Index)) []) key
      = some [] := foldl_aset_alookup [] key keys [] (Or.inl hk)
  have hnd : ((keys.foldl (fun kl k => aset kl k ([] : List Value)) []).map
      (fun p => p.1)).Nodup := foldl_aset_names_nodup [] keys [] List.nodup_nil
  have hmem : key ∈ (keys.foldl (fun kl k => aset kl k ([] : List Value)) []).map
      (fun p => p.1) := foldl_aset_names_mem [] key keys [] (Or.inl hk)
  have hproj := usersFold_proj h key users
    (keys.foldl (fun kl k => aset kl k []) [], keys.foldl (fun hh k => aset hh k []) [])
    hnd hmem
  rw [base1, base2] at hproj
  exact congrArg Prod.snd hproj

/-! ## Bucket partition lemmas (claim C5) -/

theorem looseEq_str (a b : String) :
    looseEq (.vStr a) (.vStr b) = true ↔ a = b := by
  unfold looseEq
  exact decide_eq_true_iff

theorem isStrVal_elim (v : Value) (hv : isStrVal v = true) : ∃ s, v = .vStr s := by
  cases v with
  | vStr s => exact ⟨s, rfl⟩
  | vNum n => exact Bool.noConfusion hv
  | vNull => exact Bool.noConfusion hv
  | vUndefined => exact Bool.noConfusion hv

theorem looseEq_of_strs (w v : Value) (hw : isStrVal w = true) (hv : isStrVal v = true) :
    looseEq w v = true ↔ w = v := by
  rcases isStrVal_elim w hw with ⟨a, ha⟩
  rcases isStrVal_elim v hv with ⟨b, hb⟩
  subst ha
  subst hb
  rw [looseEq_str]
  constructor
  · intro h; rw [h]
  · intro h; exact Value.vStr.inj h

theorem map_ite_fixed {α : Type} (l : List (String × α)) (k : String) (v : α)
    (hf : ∀ p ∈ l, p.1 ≠ k) :
    l.map (fun p => if p.1 = k then (k, v) else p) = l := by
  have : l.map (fun p => if p.1 = k then (k, v) else p) = l.map (fun p => p) := by
    refine List.map_congr_left ?_
    intro p hp
    rw [if_neg (hf p hp)]
  rw [this, List.map_id']

theorem alookup_none_any {α : Type} (l : List (String × α)) (k : String)
    (h : alookup l k = none) : l.any (fun p => p.1 = k) = false := by
  induction l with
  | nil => rfl
  | cons p ps ih =>
    rw [alookup_cons] at h
    by_cases hp : p.1 = k
    · rw [if_pos hp] at h
      exact Option.noConfusion h
    · rw [if_neg hp] at h
      rw [List.any_cons, decide_eq_false hp, ih h]
      rfl

theorem bucketPush_cons_ne (e : String × List Nat) (idx : Index) (pk : String)
    (uid : Nat) (he : e.1 ≠ pk) :
    bucketPush (e :: idx) pk uid = e :: bucketPush idx pk uid := by
  unfold bucketPush
  rw [alookup_cons, if_neg he]
  cases halk : alookup idx pk with
  | some b =>
    have hany : idx.any (fun p => p.1 = pk) = true := alookup_any idx pk b halk
    show aset (e :: idx) pk (b ++ [uid]) = e :: aset idx pk (b ++ [uid])
    unfold aset
    rw [if_pos (by rw [List.any_cons, hany, decide_eq_false he]; rfl), if_pos hany,
      List.map_cons, if_neg he]
  | none =>
    have hany : idx.any (fun p => p.1 = pk) = false := alookup_none_any idx pk halk
    show aset (e :: idx) pk [uid] = e :: aset idx pk [uid]
    unfold aset
    rw [if_neg (by rw [List.any_cons, hany, decide_eq_false he]; exact Bool.false_ne_true),
      if_neg (by rw [hany]; exact Bool.false_ne_true), List.cons_append]

theorem bucketPush_join (pk : String) (uid : Nat) :
    ∀ (idx : Index), (idx.map (fun p => p.1)).Nodup →
      List.Perm (bucketsJoin (bucketPush idx pk uid)) (bucketsJoin idx ++ [uid]) := by
  intro idx
  induction idx with
  | nil =>
    intro _
    show List.Perm (bucketsJoin [(pk, [uid])]) ([] ++ [uid])
    rw [List.nil_append]
    exact List.Perm.refl _
  | cons e es ih =>
    intro hnd
    rw [List.map_cons, List.nodup_cons] at hnd
    by_cases he : e.1 = pk
    · have hes : ∀ p ∈ es, p.1 ≠ pk := by
        intro p hp hc
        exact hnd.1 (he ▸ hc ▸ List.mem_map.mpr ⟨p, hp, rfl⟩)
      have halk : alookup (e :: es) pk = some e.2 := by
        rw [alookup_cons, if_pos he]
      have hany : (e :: es).any (fun p => p.1 = pk) = true := by
        rw [List.any_cons, decide_eq_true he, Bool.true_or]
      show List.Perm (bucketsJoin (bucketPush (e :: es) pk uid)) _
      unfold bucketPush
      rw [halk]
      show List.Perm (bucketsJoin (aset (e :: es) pk (e.2 ++ [uid]))) _
      unfold aset
      rw [if_pos hany, List.map_cons, if_pos he, map_ite_fixed es pk _ hes]
      show List.Perm ((e.2 ++ [uid]) ++ bucketsJoin es) ((e.2 ++ bucketsJoin es) ++ [uid])
      rw [List.append_assoc e.2 [uid] (bucketsJoin es),
        List.append_assoc e.2 (bucketsJoin es) [uid]]
      exact (List.perm_append_comm.append_left e.2)
    · rw [bucketPush_cons_ne e es pk uid he]
      show List.Perm (e.2 ++ bucketsJoin (bucketPush es pk uid))
        ((e.2 ++ bucketsJoin es) ++ [uid])
      rw [List.append_assoc]
      exact (ih hnd.2).append_left e.2

theorem bucketPush_names_nodup (idx : Index) (pk : String) (uid : Nat)
    (hnd : (idx.map (fun p => p.1)).Nodup) :
    ((bucketPush idx pk uid).map (fun p => p.1)).Nodup := by
  unfold bucketPush
  cases halk : alookup idx pk with
  | some b =>
    show ((aset idx pk (b ++ [uid])).map (fun p => p.1)).Nodup
    rw [aset_names_eq idx pk _ (alookup_any idx pk b halk)]
    exact hnd
  | none =>
    show ((aset idx pk [uid]).map (fun p => p.1)).Nodup
    rw [aset_names_append idx pk _ (alookup_none_any idx pk halk)]
    have hpk : pk ∉ idx.map (fun p => p.1) := fun hc =>
      Bool.noConfusion ((alookup_none_any idx pk halk) ▸ (any_fst_mem idx pk).mpr hc)
    simp [List.nodup_append, hnd, hpk]

theorem pushMatchesFold_none (v : Value) (uid : Nat) :
    ∀ (list : List Value) (acc : Index), (∀ w ∈ list, looseEq w v = false) →
      list.foldl
        (fun acc w => if looseEq w v then bucketPush acc (propKey v) uid else acc) acc
        = acc := by
  intro list
  induction list with
  | nil => intro acc _; rfl
  | cons w rest ih =>
    intro acc hmem
    rw [List.foldl_cons,
      if_neg (by rw [hmem w (List.mem_cons_self _ _)]; exact Bool.false_ne_true)]
    exact ih acc (fun x hx => hmem x (List.mem_cons_of_mem _ hx))

theorem pushMatches_single (v : Value) (uid : Nat) (hv : isStrVal v = true) :
    ∀ (list : List Value) (idx : Index), list.Nodup →
      (∀ w ∈ list, isStrVal w = true) → v ∈ list →
      pushMatches idx list v uid = bucketPush idx (propKey v) uid := by
  intro list
  induction list with
  | nil => intro idx _ _ hmem; exact absurd hmem (List.not_mem_nil v)
  | cons w rest ih =>
    intro idx hnd hstr hmem
    rw [List.nodup_cons] at hnd
    unfold pushMatches
    rw [List.foldl_cons]
    by_cases hw : w = v
    · have hlw : looseEq w v = true :=
        (looseEq_of_strs w v (hstr w (List.mem_cons_self _ _)) hv).mpr hw
      rw [if_pos hlw]
      refine pushMatchesFold_none v uid rest _ ?_
      intro x hx
      cases hlx : looseEq x v
      · rfl
      · have hxv : x = v :=
          (looseEq_of_strs x v (hstr x (List.mem_cons_of_mem _ hx)) hv).mp hlx
        exact absurd (hxv ▸ hx) (hw ▸ hnd.1)
    · have hlw : looseEq w v = false := by
        cases hlx : looseEq w v
        · rfl
        · exact absurd
            ((looseEq_of_strs w v (hstr w (List.mem_cons_self _ _)) hv).mp hlx) hw
      rw [if_neg (by rw [hlw]; exact Bool.false_ne_true)]
      have hmem2 : v ∈ rest := by
        rcases List.mem_cons.mp hmem with hc | hc
        · exact absurd hc.symm hw
        · exact hc
      show pushMatches idx rest v uid = bucketPush idx (propKey v) uid
      exact ih idx hnd.2 (fun x hx => hstr x (List.mem_cons_of_mem _ hx)) hmem2

theorem perKeyRun_partition (h : Heap) (key : String) :
    ∀ (users : List Nat) (st : List Value × Index),
      (∀ u ∈ users, isStrVal (getProp (h u) key) = true) →
      st.1.Nodup → (∀ w ∈ st.1, isStrVal w = true) →
      (st.2.map (fun p => p.1)).Nodup →
      List.Perm (bucketsJoin ((users.foldl (perKeyStep h key) st)).2)
        (bucketsJoin st.2 ++ users) := by
  intro users
  induction users with
  | nil =>
    intro st _ _ _ _
    rw [List.append_nil]
    exact List.Perm.refl _
  | cons u us ih =>
    intro st hstr hnd1 hstr1 hnd2
    rw [List.foldl_cons]
    have hvstr : isStrVal (getProp (h u) key) = true := hstr u (List.mem_cons_self _ _)
    have hlist : (perKeyStep h key st u).1 =
        (if st.1.contains (getProp (h u) key) then st.1
         else st.1 ++ [getProp (h u) key]) := rfl
    have hnd1' : (perKeyStep h key st u).1.Nodup := by
      rw [hlist]
      split
      · exact hnd1
      next hc =>
        have : getProp (h u) key ∉ st.1 := fun hmem => hc (List.elem_iff.mpr hmem)
        simp [List.nodup_append, hnd1, this]
    have hstr1' : ∀ w ∈ (perKeyStep h key st u).1, isStrVal w = true := by
      rw [hlist]
      split
      · exact hstr1
      · intro w hw
        rcases List.mem_append.mp hw with hc | hc
        · exact hstr1 w hc
        · rw [List.mem_singleton.mp hc]
          exact hvstr
    have hvmem : getProp (h u) key ∈ (perKeyStep h key st u).1 := by
      rw [hlist]
      split
      next hc => exact List.elem_iff.mp hc
      · exact List.mem_append.mpr (Or.inr (List.mem_singleton.mpr rfl))
    have hidx : (perKeyStep h key st u).2 =
        bucketPush st.2 (propKey (getProp (h u) key)) u := by
      show pushMatches st.2 (perKeyStep h key st u).1 (getProp (h u) key) u = _
      exact pushMatches_single _ u hvstr _ st.2 hnd1' hstr1' hvmem
    have hnd2' : ((perKeyStep h key st u).2.map (fun p => p.1)).Nodup := by
      rw [hidx]
      exact bucketPush_names_nodup st.2 _ u hnd2
    have hjoin : List.Perm (bucketsJoin (perKeyStep h key st u).2)
        (bucketsJoin st.2 ++ [u]) := by
      rw [hidx]
      exact bucketPush_join _ u st.2 hnd2
    have hrec := ih (perKeyStep h key st u)
      (fun x hx => hstr x (List.mem_cons_of_mem _ hx)) hnd1' hstr1' hnd2'
    refine hrec.trans ?_
    refine (hjoin.append_right us).trans ?_
    rw [List.append_assoc]
    exact List.Perm.refl _

theorem bucketSizeSum_join (idx : Index) :
    bucketSizeSum idx = (bucketsJoin idx).length := by
  unfold bucketSizeSum bucketsJoin
  rw [List.length_flatten, List.map_map]
  rfl

/-- C5 amended: provided every record's value for the key is a string
— so that JS loose equality and property-key coercion agree with
strict equality — the index built for that key places each input
record into exactly one bucket: the concatenation of the key's buckets
is a permutation of the input record list, and in particular the
bucket sizes sum to exactly the input record count.  For mixed
number/string values coercion can push one record twice (see the
counterexample). -/
theorem C5_partition_of_strings (h : Heap) (users : List Nat) (keys : List String)
    (key : String) (hk : key ∈ keys)
    (hstr : ∀ u ∈ users, isStrVal (getProp (h u) key) = true) :
    List.Perm
        (bucketsJoin ((alookup (transformUsersToHashByKeys h users keys) key).getD []))
        users ∧
      bucketSizeSum ((alookup (transformUsersToHashByKeys h users keys) key).getD [])
        = users.length := by
  rw [transform_proj h users keys key hk]
  have hperm := perKeyRun_partition h key users ([], []) hstr List.nodup_nil
    (fun w hw => absurd hw (List.not_mem_nil w)) List.nodup_nil
  rw [show bucketsJoin ([] : Index) ++ users = users from List.nil_append users] at hperm
  exact ⟨hperm, by rw [bucketSizeSum_join]; exact hperm.length_eq⟩

theorem C5_witness :
    "_id" ∈ KEYS_WITH_DUPES ∧
      (∀ u ∈ ([0, 1] : List Nat), isStrVal (getProp (hC2 u) "_id") = true) ∧
      (List.Perm
          (bucketsJoin ((alookup (transformUsersToHashByKeys hC2 [0, 1] KEYS_WITH_DUPES)
              "_id").getD [])) [0, 1] ∧
        bucketSizeSum ((alookup (transformUsersToHashByKeys hC2 [0, 1] KEYS_WITH_DUPES)
            "_id").getD []) = ([0, 1] : List Nat).length) :=
  ⟨by decide, by decide,
    C5_partition_of_strings hC2 [0, 1] KEYS_WITH_DUPES "_id" (by decide) (by decide)⟩

/-! ## No-duplicate identity lemmas (claim C9) -/

theorem propKey_str_inj (v w : Value) (hv : isStrVal v = true) (hw : isStrVal w = true)
    (hpk : propKey v = propKey w) : v = w := by
  rcases isStrVal_elim v hv with ⟨a, ha⟩
  rcases isStrVal_elim w hw with ⟨b, hb⟩
  subst ha
  subst hb
  exact congrArg Value.vStr hpk

theorem isNonIndexStrVal_elim (v : Value) (hv : isNonIndexStrVal v = true) :
    isStrVal v = true ∧ isArrayIndexStr (propKey v) = false := by
  cases v with
  | vStr s =>
    refine ⟨rfl, ?_⟩
    have hv2 : (!isArrayIndexStr s) = true := hv
    show isArrayIndexStr s = false
    cases hb : isArrayIndexStr s
    · rfl
    · rw [hb] at hv2
      exact Bool.noConfusion hv2
  | vNum n => exact Bool.noConfusion hv
  | vNull => exact Bool.noConfusion hv
  | vUndefined => exact Bool.noConfusion hv

theorem contains_eq_false {v : Value} {l : List Value} (h : v ∉ l) :
    l.contains v = false := by
  cases hb : l.contains v
  · rfl
  · exact absurd (List.elem_iff.mp hb) h

theorem perKeyRun_distinct (h : Heap) (key : String) :
    ∀ (users : List Nat) (list0 : List Value) (idx0 : Index),
      (∀ u ∈ users, isStrVal (getProp (h u) key) = true) →
      (users.map (fun u => getProp (h u) key)).Nodup →
      (∀ u ∈ users, getProp (h u) key ∉ list0) →
      (∀ w ∈ list0, isStrVal w = true) →
      list0.Nodup →
      idx0.map (fun p => p.1) = list0.map propKey →
      (users.foldl (perKeyStep h key) (list0, idx0)).2 =
        idx0 ++ users.map (fun u => (propKey (getProp (h u) key), [u])) := by
  intro users
  induction users with
  | nil =>
    intro list0 idx0 _ _ _ _ _ _
    rw [List.map_nil, List.append_nil]
    rfl
  | cons u us ih =>
    intro list0 idx0 hstr hvnd hnin hstr0 hnd0 hnames
    rw [List.foldl_cons]
    have hv : isStrVal (getProp (h u) key) = true := hstr u (List.mem_cons_self _ _)
    have hvnotin : getProp (h u) key ∉ list0 := hnin u (List.mem_cons_self _ _)
    rw [List.map_cons, List.nodup_cons] at hvnd
    have hlist : (perKeyStep h key (list0, idx0) u).1 =
        list0 ++ [getProp (h u) key] := by
      show (if list0.contains (getProp (h u) key) then list0
        else list0 ++ [getProp (h u) key]) = _
      rw [if_neg (by rw [contains_eq_false hvnotin]; exact Bool.false_ne_true)]
    have hnd1' : (list0 ++ [getProp (h u) key]).Nodup := by
      simp [List.nodup_append, hnd0, hvnotin]
    have hstr1' : ∀ w ∈ list0 ++ [getProp (h u) key], isStrVal w = true := by
      intro w hw
      rcases List.mem_append.mp hw with hc | hc
      · exact hstr0 w hc
      · rw [List.mem_singleton.mp hc]
        exact hv
    have hpknotin : ∀ p ∈ idx0, p.1 ≠ propKey (getProp (h u) key) := by
      intro p hp hc
      have hp1 : p.1 ∈ idx0.map (fun p => p.1) := List.mem_map.mpr ⟨p, hp, rfl⟩
      rw [hnames] at hp1
      rcases List.mem_map.mp hp1 with ⟨w, hw, hpw⟩
      have : w = getProp (h u) key :=
        propKey_str_inj w _ (hstr0 w hw) hv (by rw [hpw, hc])
      exact hvnotin (this ▸ hw)
    have hidx : (perKeyStep h key (list0, idx0) u).2 =
        idx0 ++ [(propKey (getProp (h u) key), [u])] := by
      show pushMatches idx0 (perKeyStep h key (list0, idx0) u).1 (getProp (h u) key) u = _
      rw [hlist]
      rw [pushMatches_single _ u hv _ idx0 hnd1' hstr1'
        (List.mem_append.mpr (Or.inr (List.mem_singleton.mpr rfl)))]
      unfold bucketPush
      rw [alookup_eq_none idx0 _ hpknotin]
      show aset idx0 _ [u] = _
      unfold aset
      rw [if_neg (by
        rw [alookup_none_any idx0 _ (alookup_eq_none idx0 _ hpknotin)]
        exact Bool.false_ne_true)]
    have hpair : perKeyStep h key (list0, idx0) u =
        (list0 ++ [getProp (h u) key], idx0 ++ [(propKey (getProp (h u) key), [u])]) := by
      rw [← hlist, ← hidx]
    rw [hpair]
    have hrec := ih (list0 ++ [getProp (h u) key])
      (idx0 ++ [(propKey (getProp (h u) key), [u])])
      (fun x hx => hstr x (List.mem_cons_of_mem _ hx))
      hvnd.2
      (by
        intro x hx hmem
        rcases List.mem_append.mp hmem with hc | hc
        · exact hnin x (List.mem_cons_of_mem _ hx) hc
        · exact hvnd.1 (List.mem_singleton.mp hc ▸ List.mem_map.mpr ⟨x, hx, rfl⟩))
      hstr1' hnd1'
      (by rw [List.map_append, List.map_append, hnames]; rfl)
    rw [hrec, List.map_cons, List.append_assoc]
    rfl

theorem jsOrderEntries_of_no_index {α : Type} (l : List (String × α))
    (hni : ∀ p ∈ l, isArrayIndexStr p.1 = false) : jsOrderEntries l = l := by
  unfold jsOrderEntries
  have h1 : l.filter (fun p => isArrayIndexStr p.1) = [] := by
    rw [List.filter_eq_nil_iff]
    intro p hp
    rw [hni p hp]
    exact Bool.false_ne_true
  have h2 : l.filter (fun p => !isArrayIndexStr p.1) = l := by
    rw [List.filter_eq_self]
    intro p hp
    rw [hni p hp]
    rfl
  rw [h1, h2]
  rfl

theorem processBucketsFold_singles :
    ∀ (es : List (String × List Nat)) (st : Heap × List Nat × Nat),
      (∀ e ∈ es, ¬ e.2.length > 1) →
      es.foldl processBucketsStep st = (st.1, st.2.1 ++ es.map (fun e => e.2.headD 0),
        st.2.2) := by
  intro es
  induction es with
  | nil =>
    intro st _
    rw [List.map_nil, List.append_nil]
    rfl
  | cons e rest ih =>
    intro st hlen
    rw [List.foldl_cons]
    have hstep : processBucketsStep st e = (st.1, st.2.1 ++ [e.2.headD 0], st.2.2) := by
      unfold processBucketsStep
      rw [if_neg (hlen e (List.mem_cons_self _ _))]
    rw [hstep, ih _ (fun x hx => hlen x (List.mem_cons_of_mem _ hx)), List.map_cons,
      List.append_assoc]
    rfl

theorem processBuckets_singles (users : List Nat) (f : Nat → String)
    (hni : ∀ u ∈ users, isArrayIndexStr (f u) = false) (hh : Heap) :
    processBuckets hh (users.map (fun u => (f u, [u]))) = (hh, users, 0) := by
  unfold processBuckets
  rw [jsOrderEntries_of_no_index _ (by
    intro p hp
    rcases List.mem_map.mp hp with ⟨u, hu, hpu⟩
    rw [← hpu]
    exact hni u hu)]
  rw [processBucketsFold_singles _ _ (by
    intro e he
    rcases List.mem_map.mp he with ⟨u, hu, heu⟩
    rw [← heu]
    exact of_decide_eq_true rfl)]
  have hmap : (users.map (fun u => (f u, [u]))).map (fun e => e.2.headD 0) = users := by
    rw [List.map_map]
    have heach : users.map ((fun e : String × List Nat => e.2.headD 0) ∘
        (fun u => (f u, [u]))) = users.map (fun u => u) :=
      List.map_congr_left (fun u _ => rfl)
    rw [heach, List.map_id']
  rw [hmap, List.nil_append]

theorem scanFold_nodup :
    ∀ (vs : List Value) (st : List Value × List Value), vs.Nodup →
      (∀ v ∈ vs, v ∉ st.1) → (vs.foldl scanStep st).2 = st.2 := by
  intro vs
  induction vs with
  | nil => intro st _ _; rfl
  | cons w ws ih =>
    intro st hnd hnin
    rw [List.nodup_cons] at hnd
    rw [List.foldl_cons]
    have hst : scanStep st w = (st.1 ++ [w], st.2) := by
      unfold scanStep
      rw [if_neg (by
        rw [contains_eq_false (hnin w (List.mem_cons_self _ _))]
        exact Bool.false_ne_true)]
    rw [hst]
    refine ih _ hnd.2 ?_
    intro v hv hmem
    rcases List.mem_append.mp hmem with hc | hc
    · exact hnin v (List.mem_cons_of_mem _ hv) hc
    · exact hnd.1 (List.mem_singleton.mp hc ▸ hv)

theorem scan_clean (h : Heap) (users : List Nat) (keys : List String)
    (hnd : (positionsVals h users keys).Nodup) :
    getListOfDuplicateValues h users keys = [] := by
  unfold getListOfDuplicateValues
  rw [scan_flatten h keys users ([], [])]
  exact scanFold_nodup _ _ hnd (fun v _ hc => absurd hc (List.not_mem_nil v))

theorem perKey_vals_sublist (h : Heap) (keys : List String) (k : String) (hk : k ∈ keys) :
    ∀ (users : List Nat),
      List.Sublist (users.map (fun u => getProp (h u) k)) (positionsVals h users keys) := by
  intro users
  induction users with
  | nil => exact List.Sublist.refl []
  | cons u us ih =>
    have hpos : positionsVals h (u :: us) keys =
        keys.map (fun kk => getProp (h u) kk) ++ positionsVals h us keys := by
      unfold positionsVals
      rw [List.map_cons, List.flatten_cons]
    rw [hpos, List.map_cons]
    have hhead : List.Sublist [getProp (h u) k] (keys.map (fun kk => getProp (h u) kk)) :=
      List.singleton_sublist.mpr (List.mem_map.mpr ⟨k, hk, rfl⟩)
    exact hhead.append ih

theorem consolidateKeysFold_const (hash : UserHash) (users : List Nat) :
    ∀ (ks : List String), ks ≠ [] →
      (∀ k ∈ ks, ∀ (hh : Heap),
        processBuckets hh ((alookup hash k).getD []) = (hh, users, 0)) →
      ∀ (p : Heap × List Nat × Nat), ks.foldl (consolidateKeyStep hash) p =
        (p.1, users, p.2.2) := by
  intro ks
  induction ks with
  | nil => intro hne _ _; exact absurd rfl hne
  | cons k rest ih =>
    intro _ hprop p
    rw [List.foldl_cons]
    have hstep : consolidateKeyStep hash p k = (p.1, users, p.2.2) := by
      unfold consolidateKeyStep
      rw [hprop k (List.mem_cons_self _ _) p.1]
      rfl
    rw [hstep]
    cases rest with
    | nil => rfl
    | cons k2 t =>
      rw [ih (List.cons_ne_nil k2 t) (fun x hx hh => hprop x (List.mem_cons_of_mem _ hx)
        hh) (p.1, users, p.2.2)]

theorem consolidatedOuter_const (hash : UserHash) (keys : List String)
    (users : List Nat) (hk : keys ≠ [])
    (hprop : ∀ k ∈ keys, ∀ (hh : Heap),
      processBuckets hh ((alookup hash k).getD []) = (hh, users, 0)) :
    ∀ (names : List String), names ≠ [] → ∀ (p : Heap × List Nat × Nat),
      names.foldl (fun q _ => keys.foldl (consolidateKeyStep hash) q) p =
        (p.1, users, p.2.2) := by
  intro names
  induction names with
  | nil => intro hne _; exact absurd rfl hne
  | cons n rest ih =>
    intro _ p
    rw [List.foldl_cons]
    rw [consolidateKeysFold_const hash users keys hk hprop p]
    cases rest with
    | nil => rfl
    | cons n2 t =>
      rw [ih (List.cons_ne_nil n2 t) (p.1, users, p.2.2)]

/-- C9 amended: when no duplicates are present in a strong sense — all
key values are non-array-index strings (so coercion agrees with strict
equality and bucket enumeration keeps insertion order) and no value
occurs at two (record, key) positions even across different keys (so
the shared-seen-list scan stays silent) — resolve returns the input
list unchanged in content and order after a single pass, performs no
record mutation (the heap is returned as-is), and emits zero log
lines.  The counterexample shows the original claim fails already for
numeric email values, which reorder the output. -/
theorem C9_no_dup_identity (h : Heap) (users : List Nat) (keys : List String)
    (fuel : Nat) (hk : keys ≠ [])
    (hstr : ∀ u ∈ users, ∀ k ∈ keys, isNonIndexStrVal (getProp (h u) k) = true)
    (hnd : (positionsVals h users keys).Nodup) :
    getResolveDuplicates (fuel + 1) h users keys = some (h, users, 1, 0) := by
  have hbuckets : ∀ k ∈ keys,
      (alookup (transformUsersToHashByKeys h users keys) k).getD [] =
        users.map (fun u => (propKey (getProp (h u) k), [u])) := by
    intro k hkk
    rw [transform_proj h users keys k hkk]
    refine perKeyRun_distinct h k users [] [] ?_ ?_ ?_ ?_ List.nodup_nil rfl
    · intro u hu
      exact (isNonIndexStrVal_elim _ (hstr u hu k hkk)).1
    · exact (hnd.sublist (perKey_vals_sublist h keys k hkk users))
    · intro u _ hc
      exact absurd hc (List.not_mem_nil _)
    · intro w hw
      exact absurd hw (List.not_mem_nil w)
  have hprop : ∀ k ∈ keys, ∀ (hh : Heap),
      processBuckets hh ((alookup (transformUsersToHashByKeys h users keys) k).getD [])
        = (hh, users, 0) := by
    intro k hkk hh
    rw [hbuckets k hkk]
    refine processBuckets_singles users _ ?_ hh
    intro u hu
    exact (isNonIndexStrVal_elim _ (hstr u hu k hkk)).2
  have hnames : ((jsOrderEntries (transformUsersToHashByKeys h users keys)).map
      (fun p => p.1)) ≠ [] := by
    intro hc
    rw [List.map_eq_nil_iff] at hc
    exact transform_ne_nil h users keys hk ((jsOrderEntries_eq_nil _).mp hc)
  have hcons : getConsolidatedUserList h (transformUsersToHashByKeys h users keys) keys
      = (h, users, 0) := by
    unfold getConsolidatedUserList
    exact consolidatedOuter_const _ keys users hk hprop _ hnames (h, [], 0)
  have hscan : getListOfDuplicateValues h users keys = [] := scan_clean h users keys hnd
  show getResolveDuplicates (fuel + 1) h users keys = _
  simp only [getResolveDuplicates, hcons, hscan]
  rfl

theorem C9_witness :
    KEYS_WITH_DUPES ≠ [] ∧
      (∀ u ∈ ([0] : List Nat), ∀ k ∈ KEYS_WITH_DUPES,
        isNonIndexStrVal (getProp (hC1 u) k) = true) ∧
      (positionsVals hC1 [0] KEYS_WITH_DUPES).Nodup ∧
      getResolveDuplicates 1 hC1 [0] KEYS_WITH_DUPES = some (hC1, [0], 1, 0) :=
  ⟨by decide, by decide, by decide,
    C9_no_dup_identity hC1 [0] KEYS_WITH_DUPES 0 (by decide) (by decide) (by decide)⟩

end Consolidator
